import Mathlib

/-!
Verification of core components of a LevelDB implementation.

Shallow embedding of the relevant C++ sources into Lean 4:
* `util/crc32c` masking (Mask / Unmask)
* `util/bloom.cc` (BloomFilterPolicy)
* `util/arena.{h,cc}` (Arena allocator)
* `table/merger` (MergingIterator, NewMergingIterator)
* `db/log_reader.cc` (WAL Reader)
* `util/cache.cc` (LRUCache shard)
* `db/table_cache.cc` (TableCache::FindTable)

Machine integers are modelled as `Nat` with explicit `% 2^w` where overflow
matters.  Byte strings are `List Nat` with each element below 256.
-/

namespace LevelDB

/-! ## crc32c Mask / Unmask (util/crc32c.h)

`Mask(crc)` returns `((crc >> 15) | (crc << 17)) + kMaskDelta` in uint32
arithmetic; `Unmask(masked)` subtracts `kMaskDelta` and rotates back.
For `c < 2^32` the bitwise OR of `c >> 15` and `(c << 17) mod 2^32` is a
disjoint-bit OR, written here as addition. -/

def kMaskDelta : Nat := 0xa282ead8

/-- uint32 right-rotation by 15: `(c >> 15) | (c << 17)` on a 32-bit value. -/
def rotRight15 (c : Nat) : Nat := c / 2 ^ 15 + c % 2 ^ 15 * 2 ^ 17

/-- uint32 right-rotation by 17: `(c >> 17) | (c << 15)` on a 32-bit value. -/
def rotRight17 (c : Nat) : Nat := c / 2 ^ 17 + c % 2 ^ 17 * 2 ^ 15

/-- `crc32c::Mask` (util/crc32c.h): rotate right by 15 and add `kMaskDelta`,
wrapping modulo `2^32`. -/
def crcMask (crc : Nat) : Nat := (rotRight15 crc + kMaskDelta) % 2 ^ 32

/-- `crc32c::Unmask` (util/crc32c.h): subtract `kMaskDelta` (uint32 wrapping
subtraction) and rotate right by 17. -/
def crcUnmask (maskedCrc : Nat) : Nat :=
  rotRight17 ((maskedCrc + 2 ^ 32 - kMaskDelta) % 2 ^ 32)

end LevelDB

namespace LevelDB

/-- C2: for every 32-bit integer `c`, `Unmask (Mask c) = c`. -/
theorem crc_unmask_mask (c : Nat) (hc : c < 2 ^ 32) : crcUnmask (crcMask c) = c := by
  have h1 : rotRight15 c < 2 ^ 32 := by unfold rotRight15; omega
  have h2 : (crcMask c + 2 ^ 32 - kMaskDelta) % 2 ^ 32 = rotRight15 c := by
    unfold crcMask kMaskDelta; omega
  unfold crcUnmask
  rw [h2]
  unfold rotRight17 rotRight15
  omega

/-- Witness for C2 at the concrete input `c = 0xdeadbeef`. -/
theorem crc_unmask_mask_witness :
    0xdeadbeef < 2 ^ 32 ∧ crcUnmask (crcMask 0xdeadbeef) = 0xdeadbeef :=
  ⟨by norm_num, crc_unmask_mask 0xdeadbeef (by norm_num)⟩

/-! ## Bloom filter (util/bloom.cc)

`BloomFilterPolicy` stores `bits_per_key_` and a probe count `k_`.  Keys are
hashed by `BloomHash` (util/hash.h, whose body is not part of the modelled
sources); all results below are parametric in the hash function, which is
reduced modulo `2^32` to model its `uint32_t` return type.  Filters are byte
strings, modelled as `List Nat` with entries below 256. -/

/-- The probe count `k_` computed in the `BloomFilterPolicy` constructor:
`k_ = static_cast<size_t>(bits_per_key * 0.69)` followed by clamping to
`[1, 30]`.  For every `bits_per_key` in the `int` range, the IEEE-double
expression `static_cast<size_t>(bits_per_key * 0.69)` equals
`bits_per_key * 69 / 100` in exact arithmetic: the rounding error of the
double product is below `2^-45 * bits_per_key`, far smaller than the `1/100`
distance to the next integer, and when `69 * bits_per_key` is an exact
multiple of 100 the product rounds to that integer from below. -/
def bloomK (bitsPerKey : Nat) : Nat := min 30 (max 1 (bitsPerKey * 69 / 100))

/-- One probe write of `CreateFilter`:
`array[bitpos / 8] |= (1 << (bitpos % 8))`. -/
def setBitInArray (arr : List Nat) (bitpos : Nat) : List Nat :=
  arr.set (bitpos / 8) (arr.getD (bitpos / 8) 0 ||| 1 <<< (bitpos % 8))

/-- The bit test performed by `KeyMayMatch`:
`(array[bitpos / 8] & (1 << (bitpos % 8))) != 0`. -/
def bloomHasBit (arr : List Nat) (bitpos : Nat) : Bool :=
  arr.getD (bitpos / 8) 0 &&& 1 <<< (bitpos % 8) != 0

/-- The inner probe loop of `CreateFilter`: starting from hash value `h`,
set `j` bits at positions `h % bits`, advancing `h` by `delta` (uint32 wrap)
after each probe. -/
def bloomAddBits (bits delta : Nat) : Nat → Nat → List Nat → List Nat
  | _, 0, arr => arr
  | h, j + 1, arr =>
      bloomAddBits bits delta ((h + delta) % 2 ^ 32) j (setBitInArray arr (h % bits))

/-- Per-key body of the `CreateFilter` loop: `h = BloomHash(key)`,
`delta = (h >> 17) | (h << 15)` (rotate right 17), then `k` probe writes. -/
def bloomAddKey (hash : α → Nat) (bits k : Nat) (arr : List Nat) (key : α) : List Nat :=
  let h := hash key % 2 ^ 32
  bloomAddBits bits (rotRight17 h) h k arr

/-- `BloomFilterPolicy::CreateFilter` (util/bloom.cc): computes the filter
size, sets the probe bits of every key in a zeroed byte array, and appends
the probe count `k_` as the final byte.  The returned list is exactly the
byte string appended to `dst`. -/
def createFilter (hash : α → Nat) (bitsPerKey : Nat) (keys : List α) : List Nat :=
  let k := bloomK bitsPerKey
  let bits0 := keys.length * bitsPerKey
  let bits1 := if bits0 < 64 then 64 else bits0
  let bytes := (bits1 + 7) / 8
  let bits := bytes * 8
  (keys.foldl (bloomAddKey hash bits k) (List.replicate bytes 0)) ++ [k]

/-- The probe loop of `KeyMayMatch`: returns `false` as soon as a probed bit
is clear, otherwise advances `h` by `delta` (uint32 wrap). -/
def keyMayMatchProbe (arr : List Nat) (bits delta : Nat) : Nat → Nat → Bool
  | _, 0 => true
  | h, j + 1 =>
      if arr.getD (h % bits / 8) 0 &&& 1 <<< (h % bits % 8) == 0 then false
      else keyMayMatchProbe arr bits delta ((h + delta) % 2 ^ 32) j

/-- `BloomFilterPolicy::KeyMayMatch` (util/bloom.cc). -/
def keyMayMatch (hash : α → Nat) (key : α) (filter : List Nat) : Bool :=
  let len := filter.length
  if len < 2 then false
  else
    let bits := (len - 1) * 8
    let k := filter.getD (len - 1) 0
    if k > 30 then true
    else
      let h := hash key % 2 ^ 32
      keyMayMatchProbe filter bits (rotRight17 h) h k

/-- The sequence of hash values probed for one key: `probeH h delta i` is the
value of `h` before probe `i`. -/
def probeH (h delta : Nat) : Nat → Nat
  | 0 => h
  | i + 1 => (probeH h delta i + delta) % 2 ^ 32

lemma probeH_shift (h delta i : Nat) :
    probeH ((h + delta) % 2 ^ 32) delta i = probeH h delta (i + 1) := by
  induction i with
  | zero => rfl
  | succ i ih => show (probeH _ _ i + delta) % 2 ^ 32 = _; rw [ih]; rfl

lemma length_setBitInArray (arr : List Nat) (p : Nat) :
    (setBitInArray arr p).length = arr.length := by
  simp [setBitInArray]

lemma length_bloomAddBits (bits delta : Nat) :
    ∀ (h j : Nat) (arr : List Nat), (bloomAddBits bits delta h j arr).length = arr.length := by
  intro h j
  induction j generalizing h with
  | zero => intro arr; rfl
  | succ j ih => intro arr; rw [bloomAddBits, ih, length_setBitInArray]

lemma length_bloomAddKey (hash : α → Nat) (bits k : Nat) (arr : List Nat) (key : α) :
    (bloomAddKey hash bits k arr key).length = arr.length := by
  simp [bloomAddKey, length_bloomAddBits]

lemma length_foldl_bloomAddKey (hash : α → Nat) (bits k : Nat) (keys : List α) :
    ∀ arr : List Nat, (keys.foldl (bloomAddKey hash bits k) arr).length = arr.length := by
  induction keys with
  | nil => intro arr; rfl
  | cons a as ih => intro arr; rw [List.foldl_cons, ih, length_bloomAddKey]

lemma or_shiftLeft_and_ne (x m : Nat) : (x ||| 1 <<< m) &&& 1 <<< m ≠ 0 := by
  have h : (1 : Nat) <<< m = 2 ^ m := by simp [Nat.shiftLeft_eq]
  rw [h, Nat.and_two_pow]
  simp [Nat.testBit_or, Nat.testBit_two_pow_self]

lemma or_preserves_and_ne (x y m : Nat) (hx : x &&& 1 <<< m ≠ 0) :
    (x ||| y) &&& 1 <<< m ≠ 0 := by
  have h : (1 : Nat) <<< m = 2 ^ m := by simp [Nat.shiftLeft_eq]
  rw [h, Nat.and_two_pow] at hx ⊢
  rcases hb : x.testBit m with _ | _
  · rw [hb] at hx; simp at hx
  · simp [Nat.testBit_or, hb]

lemma getD_set_ne (arr : List Nat) (i j v : Nat) (hij : i ≠ j) :
    (arr.set i v).getD j 0 = arr.getD j 0 := by
  by_cases hj : j < arr.length
  · rw [List.getD_eq_getElem _ _ (by simpa using hj), List.getD_eq_getElem _ _ hj]
    exact List.getElem_set_ne hij _
  · rw [List.getD_eq_default _ _ (by simpa using Nat.le_of_not_lt hj),
      List.getD_eq_default _ _ (Nat.le_of_not_lt hj)]

lemma hasBit_setBit_self (arr : List Nat) (p : Nat) (hp : p / 8 < arr.length) :
    bloomHasBit (setBitInArray arr p) p = true := by
  unfold bloomHasBit setBitInArray
  rw [List.getD_eq_getElem _ _ (by simpa using hp), List.getElem_set_self]
  simpa using or_shiftLeft_and_ne (arr.getD (p / 8) 0) (p % 8)

lemma hasBit_setBit_mono (arr : List Nat) (p q : Nat) (hp : bloomHasBit arr p = true) :
    bloomHasBit (setBitInArray arr q) p = true := by
  unfold bloomHasBit at hp ⊢
  by_cases hq : q / 8 = p / 8
  · by_cases hlt : p / 8 < arr.length
    · unfold setBitInArray
      rw [hq, List.getD_eq_getElem _ _ (by simpa using hlt), List.getElem_set_self]
      simp only [bne_iff_ne, ne_eq] at hp ⊢
      exact or_preserves_and_ne _ _ _ hp
    · unfold setBitInArray
      rw [hq]
      rw [List.getD_eq_default _ _ (by simpa using Nat.le_of_not_lt hlt)] at hp ⊢
      exact hp
  · unfold setBitInArray
    rw [getD_set_ne _ _ _ _ hq]
    exact hp

lemma hasBit_addBits_mono (bits delta : Nat) :
    ∀ (h j : Nat) (arr : List Nat) (p : Nat), bloomHasBit arr p = true →
      bloomHasBit (bloomAddBits bits delta h j arr) p = true := by
  intro h j
  induction j generalizing h with
  | zero => intro arr p hp; exact hp
  | succ j ih => intro arr p hp; exact ih _ _ _ (hasBit_setBit_mono _ _ _ hp)

lemma hasBit_foldl_mono (hash : α → Nat) (bits k : Nat) (keys : List α) :
    ∀ (arr : List Nat) (p : Nat), bloomHasBit arr p = true →
      bloomHasBit (keys.foldl (bloomAddKey hash bits k) arr) p = true := by
  induction keys with
  | nil => intro arr p hp; exact hp
  | cons a as ih =>
      intro arr p hp
      exact ih _ _ (hasBit_addBits_mono _ _ _ _ _ _ hp)

lemma addBits_sets (bits delta : Nat) (hbits : 0 < bits) :
    ∀ (j h : Nat) (arr : List Nat), bits = arr.length * 8 →
      ∀ i < j, bloomHasBit (bloomAddBits bits delta h j arr) (probeH h delta i % bits) = true := by
  intro j
  induction j with
  | zero => intro h arr _ i hi; omega
  | succ j ih =>
      intro h arr hlen i hi
      rw [bloomAddBits]
      match i with
      | 0 =>
          apply hasBit_addBits_mono
          apply hasBit_setBit_self
          have h1 : h % bits < bits := Nat.mod_lt _ hbits
          omega
      | Nat.succ i =>
          rw [← probeH_shift]
          exact ih ((h + delta) % 2 ^ 32) _ (by rw [length_setBitInArray]; exact hlen) i
            (Nat.lt_of_succ_lt_succ hi)

lemma matchProbe_of_hasBits (arr : List Nat) (bits delta : Nat) :
    ∀ (j h : Nat), (∀ i < j, bloomHasBit arr (probeH h delta i % bits) = true) →
      keyMayMatchProbe arr bits delta h j = true := by
  intro j
  induction j with
  | zero => intro h _; rfl
  | succ j ih =>
      intro h hall
      rw [keyMayMatchProbe]
      have h0 := hall 0 (Nat.succ_pos j)
      unfold bloomHasBit at h0
      simp only [bne_iff_ne, ne_eq] at h0
      rw [if_neg (by simpa using h0)]
      exact ih _ fun i hi => by rw [probeH_shift]; exact hall (i + 1) (Nat.succ_lt_succ hi)

lemma hasBit_append_last (arr : List Nat) (x p : Nat) (hp : p / 8 < arr.length) :
    bloomHasBit (arr ++ [x]) p = bloomHasBit arr p := by
  unfold bloomHasBit
  rw [List.getD_append _ _ _ _ hp]

lemma foldl_addKey_sets (hash : α → Nat) (bits k : Nat) (hbits : 0 < bits) (key : α) :
    ∀ (keys : List α) (arr : List Nat), key ∈ keys → bits = arr.length * 8 →
      ∀ i < k,
        bloomHasBit (keys.foldl (bloomAddKey hash bits k) arr)
          (probeH (hash key % 2 ^ 32) (rotRight17 (hash key % 2 ^ 32)) i % bits) = true := by
  intro keys
  induction keys with
  | nil => intro arr hmem; exact absurd hmem (List.not_mem_nil _)
  | cons a as ih =>
      intro arr hmem hlen i hi
      rw [List.foldl_cons]
      rcases List.mem_cons.mp hmem with heq | hmem2
      · subst heq
        apply hasBit_foldl_mono
        exact addBits_sets bits _ hbits k _ arr hlen i hi
      · exact ih _ hmem2 (by rw [length_bloomAddKey]; exact hlen) i hi

end LevelDB

namespace LevelDB

/-- C1: the Bloom filter has no false negatives.  For every hash function,
every `bits_per_key ≥ 1`, every key list and every key in that list,
`KeyMayMatch` returns `true` on the filter produced by `CreateFilter`. -/
theorem bloom_no_false_negative (hash : α → Nat) (bitsPerKey : Nat) (keys : List α)
    (key : α) (hb : 1 ≤ bitsPerKey) (hk : key ∈ keys) :
    keyMayMatch hash key (createFilter hash bitsPerKey keys) = true := by
  have hk30 : bloomK bitsPerKey ≤ 30 := by unfold bloomK; omega
  simp only [createFilter, keyMayMatch]
  set bits1 := if keys.length * bitsPerKey < 64 then 64 else keys.length * bitsPerKey
    with hb1
  have hbits1 : 64 ≤ bits1 := by rw [hb1]; split <;> omega
  set bytes := (bits1 + 7) / 8 with hbytes
  have hbytes8 : 8 ≤ bytes := by omega
  set arr := keys.foldl (bloomAddKey hash (bytes * 8) (bloomK bitsPerKey))
    (List.replicate bytes 0) with harr
  have hlen : arr.length = bytes := by
    rw [harr, length_foldl_bloomAddKey, List.length_replicate]
  have hfl : (arr ++ [bloomK bitsPerKey]).length = bytes + 1 := by simp [hlen]
  rw [hfl]
  have hget : (arr ++ [bloomK bitsPerKey]).getD (bytes + 1 - 1) 0 = bloomK bitsPerKey := by
    rw [Nat.add_sub_cancel, List.getD_append_right _ _ _ _ (by omega), hlen]
    simp
  rw [hget, if_neg (by omega), if_neg (by omega)]
  apply matchProbe_of_hasBits
  intro i hi
  have hpos : probeH (hash key % 2 ^ 32) (rotRight17 (hash key % 2 ^ 32)) i % ((bytes + 1 - 1) * 8)
      < bytes * 8 := by
    have : bytes + 1 - 1 = bytes := by omega
    rw [this]
    exact Nat.mod_lt _ (by omega)
  have hsimp : bytes + 1 - 1 = bytes := by omega
  rw [hsimp] at hpos ⊢
  rw [hasBit_append_last _ _ _ (by omega)]
  exact foldl_addKey_sets hash (bytes * 8) (bloomK bitsPerKey) (by omega) key keys
    (List.replicate bytes 0) hk (by simp) i hi

/-- Witness for C1: `bits_per_key = 10`, keys `[5, 9]`, key `5`, with the
identity hash. -/
theorem bloom_no_false_negative_witness :
    1 ≤ 10 ∧ (5 : Nat) ∈ [5, 9] ∧
      keyMayMatch (fun n => n) 5 (createFilter (fun n => n) 10 [(5 : Nat), 9]) = true :=
  ⟨by norm_num, by norm_num,
    bloom_no_false_negative (fun n => n) 10 [5, 9] 5 (by norm_num) (by norm_num)⟩

lemma nine_lt_thirteen_log_two : (9 : ℝ) < 13 * Real.log 2 := by
  have hexp : Real.exp 9 < 8192 := by
    have h3 : Real.exp 9 = Real.exp 1 ^ (9 : ℕ) := by
      rw [← Real.exp_nat_mul]; norm_num
    rw [h3]
    calc Real.exp 1 ^ (9 : ℕ) < 2.7182818286 ^ (9 : ℕ) :=
          pow_lt_pow_left₀ Real.exp_one_lt_d9 (Real.exp_pos 1).le (by norm_num)
      _ < 8192 := by norm_num
  have h13 : Real.exp (9 / 13) ^ (13 : ℕ) = Real.exp 9 := by
    rw [← Real.exp_nat_mul]; norm_num
  have hlt : Real.exp (9 / 13) < 2 := by
    apply lt_of_pow_lt_pow_left₀ 13 (by norm_num : (0 : ℝ) ≤ 2)
    rw [h13]
    calc Real.exp 9 < 8192 := hexp
      _ ≤ 2 ^ (13 : ℕ) := by norm_num
  have hlog : (9 / 13 : ℝ) < Real.log 2 :=
    (Real.lt_log_iff_exp_lt (by norm_num)).mpr hlt
  linarith

lemma thirteen_log_two_lt_ten : (13 : ℝ) * Real.log 2 < 10 := by
  have hexp : (8192 : ℝ) < Real.exp 10 := by
    have h3 : Real.exp 10 = Real.exp 1 ^ (10 : ℕ) := by
      rw [← Real.exp_nat_mul]; norm_num
    rw [h3]
    calc (8192 : ℝ) < 2.7182818283 ^ (10 : ℕ) := by norm_num
      _ < Real.exp 1 ^ (10 : ℕ) :=
          pow_lt_pow_left₀ Real.exp_one_gt_d9 (by norm_num) (by norm_num)
  have h13 : Real.exp (10 / 13) ^ (13 : ℕ) = Real.exp 10 := by
    rw [← Real.exp_nat_mul]; norm_num
  have hlt : (2 : ℝ) < Real.exp (10 / 13) := by
    apply lt_of_pow_lt_pow_left₀ 13 (Real.exp_pos _).le
    rw [h13]
    calc (2 : ℝ) ^ (13 : ℕ) = 8192 := by norm_num
      _ < Real.exp 10 := hexp
  have hlog : Real.log 2 < 10 / 13 :=
    (Real.log_lt_iff_lt_exp (by norm_num)).mpr hlt
  linarith

/-- C7 counterexample: at `bits_per_key = 13` the code computes `k_ = 8`
(from the constant `0.69` in `util/bloom.cc`), while
`round_down(bits_per_key * ln 2)` clamped to `[1, 30]` is `9`. -/
theorem bloomK_ln2_counterexample :
    bloomK 13 = 8 ∧ min 30 (max 1 ⌊(13 : ℝ) * Real.log 2⌋) = 9 := by
  constructor
  · rfl
  · have hfloor : ⌊(13 : ℝ) * Real.log 2⌋ = 9 := by
      rw [Int.floor_eq_iff]
      constructor
      · push_cast
        exact nine_lt_thirteen_log_two.le
      · push_cast
        linarith [thirteen_log_two_lt_ten]
    rw [hfloor]
    decide

/-- C7 amended: the probe count `k_` equals `round_down(bits_per_key * 0.69)`
(the constant written in the constructor, approximating `ln 2`), clamped to
`[1, 30]`. -/
theorem bloomK_amended (b : Nat) :
    bloomK b = min 30 (max 1 (Nat.floor ((b : ℚ) * (69 / 100)))) := by
  have hfloor : Nat.floor ((b : ℚ) * (69 / 100)) = b * 69 / 100 := by
    have h1 : (b : ℚ) * (69 / 100) = ((b * 69 : ℕ) : ℚ) / ((100 : ℕ) : ℚ) := by
      push_cast; ring
    rw [h1, Nat.floor_div_nat, Nat.floor_natCast]
  rw [bloomK, hfloor]

/-! ## Arena allocator (util/arena.h, util/arena.cc)

Pointers are modelled abstractly as a pair of a block index (into the
`blocks_` vector, in allocation order) and an offset inside that block.
`kBlockSize = 4096`; `AllocateNewBlock` accounts
`block_bytes + sizeof(char*)` with `sizeof(char*) = 8`. -/

def kArenaBlockSize : Nat := 4096

/-- Abstract memory address: block index and byte offset within the block. -/
structure ArenaPtr where
  block : Nat
  ofs : Nat
  deriving DecidableEq, Repr

/-- The allocation state of `class Arena`: the sizes of the blocks in
`blocks_`, the bump pointer `alloc_ptr_` (block index + offset),
`alloc_bytes_remaining_`, and `memory_usage_`. -/
structure Arena where
  blocks : List Nat
  allocBlock : Option Nat
  allocOfs : Nat
  allocBytesRemaining : Nat
  memoryUsage : Nat
  deriving DecidableEq, Repr

/-- `Arena::Arena()`: empty block list, null bump pointer, zero remaining. -/
def Arena.init : Arena :=
  { blocks := [], allocBlock := none, allocOfs := 0, allocBytesRemaining := 0,
    memoryUsage := 0 }

/-- `Arena::AllocateNewBlock`: appends a block of `blockBytes` bytes and adds
`block_bytes + sizeof(char*)` to the usage counter.  Returns the new block's
index. -/
def Arena.allocateNewBlock (a : Arena) (blockBytes : Nat) : Arena × Nat :=
  ({ a with blocks := a.blocks ++ [blockBytes],
            memoryUsage := a.memoryUsage + blockBytes + 8 },
   a.blocks.length)

/-- `Arena::AllocateFallback`: requests over `kBlockSize / 4` get their own
exact-sized block without touching the bump pointer; smaller requests start
a fresh 4096-byte bump block (wasting the old remainder). -/
def Arena.allocateFallback (a : Arena) (bytes : Nat) : Arena × ArenaPtr :=
  if bytes > kArenaBlockSize / 4 then
    let r := a.allocateNewBlock bytes
    (r.1, ⟨r.2, 0⟩)
  else
    let r := a.allocateNewBlock kArenaBlockSize
    ({ r.1 with allocBlock := some r.2, allocOfs := bytes,
                allocBytesRemaining := kArenaBlockSize - bytes },
     ⟨r.2, 0⟩)

/-- `Arena::Allocate` (util/arena.h): serve from the current block when the
request fits in `alloc_bytes_remaining_`, otherwise fall back. -/
def Arena.allocate (a : Arena) (bytes : Nat) : Arena × ArenaPtr :=
  if bytes ≤ a.allocBytesRemaining then
    ({ a with allocOfs := a.allocOfs + bytes,
              allocBytesRemaining := a.allocBytesRemaining - bytes },
     ⟨a.allocBlock.getD 0, a.allocOfs⟩)
  else
    a.allocateFallback bytes

end LevelDB

namespace LevelDB

/-- C8 counterexample: after `Allocate(1)` on a fresh arena the current block
has 4095 remaining bytes, so the 2000-byte request (more than 1024) is served
from the bump pointer of the existing block: no new block is allocated and
the bump-pointer state changes. -/
theorem arena_large_alloc_counterexample :
    1024 < 2000 ∧
      (((Arena.init.allocate 1).1.allocate 2000).1.blocks
          = (Arena.init.allocate 1).1.blocks ∧
        (Arena.init.allocate 1).1.allocOfs = 1 ∧
        ((Arena.init.allocate 1).1.allocate 2000).1.allocOfs = 2001 ∧
        (Arena.init.allocate 1).1.allocBytesRemaining = 4095 ∧
        ((Arena.init.allocate 1).1.allocate 2000).1.allocBytesRemaining = 2095) := by
  decide

/-- C8 amended: an allocation request of more than 1024 bytes that does not
fit in the current block's remaining bytes is served from a freshly
allocated block of exactly the requested size (appended to `blocks_`, at
offset 0), and leaves `alloc_ptr_` and `alloc_bytes_remaining_` unchanged. -/
theorem arena_large_alloc (a : Arena) (bytes : Nat) (hbig : 1024 < bytes)
    (hnofit : a.allocBytesRemaining < bytes) :
    (a.allocate bytes).1.blocks = a.blocks ++ [bytes] ∧
      (a.allocate bytes).2 = ⟨a.blocks.length, 0⟩ ∧
      (a.allocate bytes).1.allocBlock = a.allocBlock ∧
      (a.allocate bytes).1.allocOfs = a.allocOfs ∧
      (a.allocate bytes).1.allocBytesRemaining = a.allocBytesRemaining := by
  unfold Arena.allocate
  rw [if_neg (by omega)]
  unfold Arena.allocateFallback
  rw [if_pos (by unfold kArenaBlockSize; omega)]
  unfold Arena.allocateNewBlock
  exact ⟨rfl, rfl, rfl, rfl, rfl⟩

/-- Witness for C8 (amended) at the fresh arena with a 2000-byte request. -/
theorem arena_large_alloc_witness :
    1024 < 2000 ∧ Arena.init.allocBytesRemaining < 2000 ∧
      ((Arena.init.allocate 2000).1.blocks = Arena.init.blocks ++ [2000] ∧
        (Arena.init.allocate 2000).2 = ⟨Arena.init.blocks.length, 0⟩ ∧
        (Arena.init.allocate 2000).1.allocBlock = Arena.init.allocBlock ∧
        (Arena.init.allocate 2000).1.allocOfs = Arena.init.allocOfs ∧
        (Arena.init.allocate 2000).1.allocBytesRemaining
          = Arena.init.allocBytesRemaining) :=
  ⟨by norm_num, by decide, arena_large_alloc Arena.init 2000 (by norm_num) (by decide)⟩

/-! ## Merging iterator (table/merger, src/unnamed/part_004)

A child iterator over a finite sorted sequence is a list of entries plus a
position; `Valid`, `key`, `SeekToFirst`, `Seek` and `Next` are the iterator
capabilities the merger uses.  Keys are compared through an arbitrary total
order standing for the supplied comparator (`Compare(a, b) < 0` is `a < b`).
`current_` is modelled as an optional child index. -/

structure ChildIter (K : Type) where
  entries : List K
  pos : Nat
  deriving DecidableEq, Repr

def ChildIter.valid (c : ChildIter K) : Bool := c.pos < c.entries.length

def ChildIter.key (c : ChildIter K) : Option K := c.entries[c.pos]?

def ChildIter.seekToFirst (c : ChildIter K) : ChildIter K := { c with pos := 0 }

def ChildIter.next (c : ChildIter K) : ChildIter K := { c with pos := c.pos + 1 }

/-- `Seek(target)` on a sorted child: position at the first entry `≥ target`
(the position past the end when there is none). -/
def ChildIter.seek [LinearOrder K] (c : ChildIter K) (t : K) : ChildIter K :=
  { c with pos := c.entries.findIdx (fun k => t ≤ k) }

/-- The remaining entries of a child from its current position. -/
def ChildIter.rem (c : ChildIter K) : List K := c.entries.drop c.pos

inductive MergeDirection where
  | kForward
  | kReverse
  deriving DecidableEq, Repr

structure MergingIterator (K : Type) where
  children : List (ChildIter K)
  current : Option Nat
  direction : MergeDirection
  deriving DecidableEq, Repr

/-- One step of the `MergingIterator::FindSmallest` scan: an invalid child
(`ck = none`) is skipped; a valid child becomes the best when there is no
best yet (`smallest == nullptr`) or when its key is strictly smaller
(`Compare(child->key(), smallest->key()) < 0`). -/
def pickBest [LinearOrder K] (i : Nat) (ck : Option K) (best : Option (Nat × K)) :
    Option (Nat × K) :=
  match ck, best with
  | none, b => b
  | some k, none => some (i, k)
  | some k, some (bi, bk) => if k < bk then some (i, k) else some (bi, bk)

/-- The scan of `MergingIterator::FindSmallest`: walk the children in index
order carrying the best `(index, key)` seen so far. -/
def findSmallestAux [LinearOrder K] : Nat → Option (Nat × K) → List (ChildIter K) →
    Option (Nat × K)
  | _, best, [] => best
  | i, best, c :: cs => findSmallestAux (i + 1) (pickBest i c.key best) cs

/-- `MergingIterator::FindSmallest`: the index of the valid child with the
smallest key (first such index on ties), or `none` when no child is valid. -/
def findSmallest [LinearOrder K] (children : List (ChildIter K)) : Option Nat :=
  (findSmallestAux 0 none children).map Prod.fst

/-- The `MergingIterator` constructor: wrap the children, `current_ = nullptr`,
`direction_ = kForward`. -/
def mkMergingIterator (childrenEntries : List (List K)) : MergingIterator K :=
  { children := childrenEntries.map (fun es => { entries := es, pos := 0 }),
    current := none, direction := .kForward }

def MergingIterator.valid (m : MergingIterator K) : Bool := m.current.isSome

/-- `key()`: the current child's key. -/
def MergingIterator.key (m : MergingIterator K) : Option K :=
  m.current.bind (fun i => (m.children[i]?).bind ChildIter.key)

/-- `MergingIterator::SeekToFirst`: seek every child to its first entry, pick
the smallest, set forward direction. -/
def MergingIterator.seekToFirst [LinearOrder K] (m : MergingIterator K) : MergingIterator K :=
  let cs := m.children.map ChildIter.seekToFirst
  { children := cs, current := findSmallest cs, direction := .kForward }

/-- `MergingIterator::Next`: when the direction is not forward, reposition
every non-current child to the first key strictly greater than `key()`
(`Seek` plus a conditional `Next` on equality); then advance the current
child and find the smallest.  `Next` asserts `Valid()`; on an invalid
iterator the model leaves the state unchanged. -/
def MergingIterator.next [LinearOrder K] (m : MergingIterator K) : MergingIterator K :=
  match m.current, m.key with
  | some cur, some k =>
      let children1 :=
        if m.direction = .kForward then m.children
        else
          m.children.mapIdx (fun i c =>
            if i = cur then c
            else
              let c2 := c.seek k
              match c2.key with
              | some k2 => if k2 = k then c2.next else c2
              | none => c2)
      let children2 :=
        children1.set cur ((children1.getD cur { entries := [], pos := 0 }).next)
      { children := children2, current := findSmallest children2,
        direction := .kForward }
  | _, _ => m

/-- `SeekToFirst` followed by repeated `Next`, collecting the visited keys,
with explicit fuel; also returns the final iterator state. -/
def runForward [LinearOrder K] : Nat → MergingIterator K → List K × MergingIterator K
  | 0, m => ([], m)
  | fuel + 1, m =>
      match m.key with
      | none => ([], m)
      | some k =>
          let r := runForward fuel m.next
          (k :: r.1, r.2)

/-- Modelled from the spec: the iterator returned by `NewEmptyIterator`
(table/iterator.cc is not among the modelled sources) reports
`Valid() == false` in every state. -/
def emptyIteratorValid : Bool := false

/-- The three possible results of `NewMergingIterator`. -/
inductive MergeChoice (ι : Type) where
  | emptyIter : MergeChoice ι
  | passthrough (it : ι) : MergeChoice ι
  | merging (children : List ι) : MergeChoice ι
  deriving DecidableEq, Repr

/-- `NewMergingIterator(comparator, children, n)` (src/unnamed/part_004):
`n == 0` returns the empty iterator, `n == 1` returns `children[0]` itself,
otherwise a `MergingIterator` over all the children. -/
def newMergingIterator (children : List ι) : MergeChoice ι :=
  match children with
  | [] => .emptyIter
  | [c] => .passthrough c
  | c1 :: c2 :: cs => .merging (c1 :: c2 :: cs)

lemma ChildIter.rem_eq_cons {c : ChildIter K} {k : K} (h : c.key = some k) :
    c.rem = k :: c.next.rem := by
  unfold ChildIter.key at h
  obtain ⟨hlt, heq⟩ := List.getElem?_eq_some.mp h
  unfold ChildIter.rem ChildIter.next
  rw [List.drop_eq_getElem_cons hlt, heq]

lemma ChildIter.rem_eq_nil {c : ChildIter K} (h : c.key = none) : c.rem = [] := by
  unfold ChildIter.key at h
  unfold ChildIter.rem
  rw [List.drop_eq_nil_iff]
  by_contra hc
  rw [List.getElem?_eq_getElem (by omega)] at h
  exact Option.some_ne_none _ h

lemma ChildIter.rem_sorted [LinearOrder K] {c : ChildIter K}
    (hs : c.entries.Sorted (· ≤ ·)) : c.rem.Sorted (· ≤ ·) :=
  List.Pairwise.sublist (List.drop_sublist _ _) hs

lemma ChildIter.key_le_rem [LinearOrder K] {c : ChildIter K} {k : K}
    (hs : c.entries.Sorted (· ≤ ·)) (h : c.key = some k) :
    ∀ x ∈ c.rem, k ≤ x := by
  intro x hx
  rw [ChildIter.rem_eq_cons h] at hx
  have hsr : (k :: c.next.rem).Sorted (· ≤ ·) := by
    rw [← ChildIter.rem_eq_cons h]; exact ChildIter.rem_sorted hs
  rcases List.mem_cons.mp hx with rfl | hx2
  · exact le_refl _
  · exact (List.sorted_cons.mp hsr).1 x hx2

lemma findSmallestAux_eq_none [LinearOrder K] :
    ∀ (cs : List (ChildIter K)) (i : Nat) (best : Option (Nat × K)),
      findSmallestAux i best cs = none → best = none ∧ ∀ c ∈ cs, c.key = none := by
  intro cs
  induction cs with
  | nil => intro i best h; exact ⟨h, by simp⟩
  | cons c cs ih =>
      intro i best h
      rw [findSmallestAux] at h
      obtain ⟨h2, hall⟩ := ih _ _ h
      rcases hk : c.key with _ | k
      · rw [hk, pickBest] at h2
        refine ⟨h2, ?_⟩
        intro c2 hc2
        rcases List.mem_cons.mp hc2 with rfl | hmem
        · exact hk
        · exact hall c2 hmem
      · exfalso
        rw [hk] at h2
        rcases best with _ | ⟨bi, bk⟩
        · rw [pickBest] at h2
          exact Option.some_ne_none _ h2
        · rw [pickBest] at h2
          split at h2 <;> exact Option.some_ne_none _ h2

lemma findSmallestAux_eq_some [LinearOrder K] :
    ∀ (cs : List (ChildIter K)) (i : Nat) (best : Option (Nat × K)) (j : Nat) (k : K),
      findSmallestAux i best cs = some (j, k) →
      (best = some (j, k) ∨
          ∃ idx c, cs[idx]? = some c ∧ c.key = some k ∧ j = i + idx) ∧
        (∀ bi bk, best = some (bi, bk) → k ≤ bk) ∧
        (∀ c ∈ cs, ∀ ck, c.key = some ck → k ≤ ck) := by
  intro cs
  induction cs with
  | nil =>
      intro i best j k h
      refine ⟨Or.inl h, ?_, by simp⟩
      intro bi bk hb
      rw [hb] at h
      cases h
      exact le_refl _
  | cons c cs ih =>
      intro i best j k h
      rw [findSmallestAux] at h
      rcases hk : c.key with _ | ck
      · -- invalid child: best unchanged
        rw [hk, pickBest] at h
        obtain ⟨hreal, hbest, hall⟩ := ih (i + 1) best j k h
        refine ⟨?_, hbest, ?_⟩
        · rcases hreal with heq | ⟨idx, c2, hget, hkey, hj⟩
          · exact Or.inl heq
          · exact Or.inr ⟨idx + 1, c2, by simpa using hget, hkey, by omega⟩
        · intro c2 hc2 ck2 hk2
          rcases List.mem_cons.mp hc2 with rfl | hmem
          · rw [hk] at hk2; cases hk2
          · exact hall c2 hmem ck2 hk2
      · rcases hb : best with _ | ⟨bi, bk⟩
        · -- first valid child becomes the best
          rw [hk, hb, pickBest] at h
          obtain ⟨hreal, hbest, hall⟩ := ih (i + 1) (some (i, ck)) j k h
          have hkck : k ≤ ck := hbest i ck rfl
          refine ⟨?_, by simp, ?_⟩
          · rcases hreal with heq | ⟨idx, c2, hget, hkey, hj⟩
            · injection heq with heq2
              injection heq2 with hj hkk
              exact Or.inr ⟨0, c, by simp, by rw [hk, hkk], by omega⟩
            · exact Or.inr ⟨idx + 1, c2, by simpa using hget, hkey, by omega⟩
          · intro c2 hc2 ck2 hk2
            rcases List.mem_cons.mp hc2 with rfl | hmem
            · rw [hk] at hk2
              injection hk2 with he
              rw [← he]
              exact hkck
            · exact hall c2 hmem ck2 hk2
        · rw [hk, hb, pickBest] at h
          by_cases hlt : ck < bk
          · rw [if_pos hlt] at h
            obtain ⟨hreal, hbest, hall⟩ := ih (i + 1) (some (i, ck)) j k h
            have hkck : k ≤ ck := hbest i ck rfl
            refine ⟨?_, ?_, ?_⟩
            · rcases hreal with heq | ⟨idx, c2, hget, hkey, hj⟩
              · injection heq with heq2
                injection heq2 with hj hkk
                exact Or.inr ⟨0, c, by simp, by rw [hk, hkk], by omega⟩
              · exact Or.inr ⟨idx + 1, c2, by simpa using hget, hkey, by omega⟩
            · intro bi2 bk2 hb2
              injection hb2 with hb3
              injection hb3 with hbi hbk
              rw [← hbk]
              exact le_trans hkck (le_of_lt hlt)
            · intro c2 hc2 ck2 hk2
              rcases List.mem_cons.mp hc2 with rfl | hmem
              · rw [hk] at hk2
                injection hk2 with he
                rw [← he]
                exact hkck
              · exact hall c2 hmem ck2 hk2
          · rw [if_neg hlt] at h
            obtain ⟨hreal, hbest, hall⟩ := ih (i + 1) (some (bi, bk)) j k h
            have hkbk : k ≤ bk := hbest bi bk rfl
            refine ⟨?_, ?_, ?_⟩
            · rcases hreal with heq | ⟨idx, c2, hget, hkey, hj⟩
              · exact Or.inl heq
              · exact Or.inr ⟨idx + 1, c2, by simpa using hget, hkey, by omega⟩
            · intro bi2 bk2 hb2
              injection hb2 with hb3
              injection hb3 with hbi hbk
              rw [← hbk]
              exact hkbk
            · intro c2 hc2 ck2 hk2
              rcases List.mem_cons.mp hc2 with rfl | hmem
              · rw [hk] at hk2
                injection hk2 with he
                rw [← he]
                exact le_trans hkbk (le_of_not_lt hlt)
              · exact hall c2 hmem ck2 hk2

lemma findSmallest_eq_none [LinearOrder K] {cs : List (ChildIter K)}
    (h : findSmallest cs = none) : ∀ c ∈ cs, c.key = none := by
  unfold findSmallest at h
  rw [Option.map_eq_none'] at h
  exact (findSmallestAux_eq_none cs 0 none h).2

lemma findSmallest_eq_some [LinearOrder K] {cs : List (ChildIter K)} {j : Nat}
    (h : findSmallest cs = some j) :
    ∃ c k, cs[j]? = some c ∧ c.key = some k ∧
      ∀ c2 ∈ cs, ∀ ck, c2.key = some ck → k ≤ ck := by
  unfold findSmallest at h
  obtain ⟨⟨j2, k⟩, haux, hfst⟩ := Option.map_eq_some'.mp h
  cases hfst
  obtain ⟨hreal, _, hall⟩ := findSmallestAux_eq_some cs 0 none j2 k haux
  rcases hreal with heq | ⟨idx, c, hget, hkey, hj⟩
  · cases heq
  · exact ⟨c, k, by rw [hj, Nat.zero_add] at *; exact hget, hkey, hall⟩

lemma flatten_set_perm :
    ∀ (L : List (List K)) (j : Nat) (x : K) (t : List K), L[j]? = some (x :: t) →
      L.flatten.Perm (x :: (L.set j t).flatten) := by
  intro L
  induction L with
  | nil => intro j x t h; simp at h
  | cons l L ih =>
      intro j x t h
      match j with
      | 0 =>
          rw [List.getElem?_cons_zero] at h
          injection h with h2
          subst h2
          simp only [List.set_cons_zero, List.flatten_cons, List.cons_append]
          exact List.Perm.refl _
      | Nat.succ j =>
          rw [List.getElem?_cons_succ] at h
          have hperm := ih j x t h
          simp only [List.set_cons_succ, List.flatten_cons]
          exact (hperm.append_left l).trans List.perm_middle

/-- The invariant maintained along a forward traversal: every child's entry
list is sorted, `current_` is the result of `FindSmallest`, and the direction
is forward. -/
def MergeInv [LinearOrder K] (m : MergingIterator K) : Prop :=
  (∀ c ∈ m.children, c.entries.Sorted (· ≤ ·)) ∧
    m.current = findSmallest m.children ∧ m.direction = .kForward

lemma merging_key_of_current [LinearOrder K] {m : MergingIterator K} {j : Nat}
    {c : ChildIter K} (hcur : m.current = some j) (hget : m.children[j]? = some c) :
    m.key = c.key := by
  unfold MergingIterator.key
  rw [hcur, Option.some_bind, hget, Option.some_bind]

lemma merging_next_eq_step [LinearOrder K] {m : MergingIterator K} {j : Nat}
    {c : ChildIter K} {k : K} (hdir : m.direction = .kForward)
    (hcur : m.current = some j) (hget : m.children[j]? = some c)
    (hkey : c.key = some k) :
    m.next = { children := m.children.set j c.next,
               current := findSmallest (m.children.set j c.next),
               direction := .kForward } := by
  have hkeym : m.key = some k := by rw [merging_key_of_current hcur hget, hkey]
  have hlt : j < m.children.length := (List.getElem?_eq_some.mp hget).1
  have hgetD : m.children.getD j { entries := [], pos := 0 } = c := by
    rw [List.getD_eq_getElem _ _ hlt]
    exact (List.getElem?_eq_some.mp hget).2
  unfold MergingIterator.next
  rw [hcur, hkeym]
  simp only [hdir, if_pos, hgetD]

lemma runForward_spec [LinearOrder K] :
    ∀ (fuel : Nat) (m : MergingIterator K), MergeInv m →
      ((m.children.map ChildIter.rem).flatten).length ≤ fuel →
      (runForward fuel m).1.Perm (m.children.map ChildIter.rem).flatten ∧
        (runForward fuel m).1.Sorted (· ≤ ·) ∧
        (runForward fuel m).2.current = none := by
  intro fuel
  induction fuel with
  | zero =>
      rintro m ⟨hs, hcur, hdir⟩ hlen
      have hnil : (m.children.map ChildIter.rem).flatten = [] :=
        List.length_eq_zero.mp (Nat.le_zero.mp hlen)
      rcases hfs : findSmallest m.children with _ | j
      · rw [runForward, hnil]
        exact ⟨List.Perm.refl _, List.sorted_nil, by rw [hcur, hfs]⟩
      · exfalso
        obtain ⟨c, k, hget, hkey, _⟩ := findSmallest_eq_some hfs
        have hmem : c ∈ m.children := by
          obtain ⟨hlt, hc⟩ := List.getElem?_eq_some.mp hget
          exact hc ▸ List.getElem_mem hlt
        have hremnil : c.rem = [] := by
          have := List.flatten_eq_nil_iff.mp hnil c.rem
            (List.mem_map_of_mem ChildIter.rem hmem)
          exact this
        rw [ChildIter.rem_eq_cons hkey] at hremnil
        cases hremnil
  | succ fuel ih =>
      rintro m ⟨hs, hcur, hdir⟩ hlen
      rcases hfs : findSmallest m.children with _ | j
      · -- no valid child: the iterator is already invalid, nothing is emitted
        have hkeysnone := findSmallest_eq_none hfs
        have hnil : (m.children.map ChildIter.rem).flatten = [] := by
          rw [List.flatten_eq_nil_iff]
          intro l hl
          obtain ⟨c, hmem, rfl⟩ := List.mem_map.mp hl
          exact ChildIter.rem_eq_nil (hkeysnone c hmem)
        have hkeym : m.key = none := by
          unfold MergingIterator.key
          rw [hcur, hfs, Option.none_bind]
        rw [runForward, hkeym, hnil]
        exact ⟨List.Perm.refl _, List.sorted_nil, by rw [hcur, hfs]⟩
      · obtain ⟨c, k, hget, hkey, hmin⟩ := findSmallest_eq_some hfs
        have hcur2 : m.current = some j := by rw [hcur, hfs]
        have hkeym : m.key = some k := by rw [merging_key_of_current hcur2 hget, hkey]
        have hmem : c ∈ m.children := by
          obtain ⟨hlt, hc⟩ := List.getElem?_eq_some.mp hget
          exact hc ▸ List.getElem_mem hlt
        have hstep := merging_next_eq_step hdir hcur2 hget hkey
        have hrc : c.rem = k :: c.next.rem := ChildIter.rem_eq_cons hkey
        have hremget : (m.children.map ChildIter.rem)[j]? = some (k :: c.next.rem) := by
          rw [List.getElem?_map, hget, Option.map_some', hrc]
        have hperm := flatten_set_perm (m.children.map ChildIter.rem) j k c.next.rem hremget
        have hmapset : (m.children.set j c.next).map ChildIter.rem
            = (m.children.map ChildIter.rem).set j c.next.rem := by
          rw [List.map_set]
        -- every remaining entry of the advanced state is at least k
        have hbound : ∀ x ∈ ((m.children.map ChildIter.rem).set j c.next.rem).flatten,
            k ≤ x := by
          intro x hx
          obtain ⟨l, hl, hxl⟩ := List.mem_flatten.mp hx
          rcases List.mem_or_eq_of_mem_set hl with hl2 | rfl
          · obtain ⟨c2, hc2mem, rfl⟩ := List.mem_map.mp hl2
            rcases hk2 : c2.key with _ | ck
            · rw [ChildIter.rem_eq_nil hk2] at hxl
              cases hxl
            · exact le_trans (hmin c2 hc2mem ck hk2)
                (ChildIter.key_le_rem (hs c2 hc2mem) hk2 x hxl)
          · have hxc : x ∈ c.rem := by rw [hrc]; exact List.mem_cons_of_mem _ hxl
            exact ChildIter.key_le_rem (hs c hmem) hkey x hxc
        have hinv2 : MergeInv m.next := by
          rw [hstep]
          refine ⟨?_, rfl, rfl⟩
          intro c2 hc2
          rcases List.mem_or_eq_of_mem_set hc2 with hc2m | rfl
          · exact hs c2 hc2m
          · exact hs c hmem
        have hlen2 : (((m.next).children.map ChildIter.rem).flatten).length ≤ fuel := by
          have h1 := hperm.length_eq
          rw [List.length_cons] at h1
          rw [hstep]
          simp only
          rw [hmapset]
          omega
        obtain ⟨ihperm, ihsorted, ihcur⟩ := ih m.next hinv2 hlen2
        rw [hstep] at ihperm
        simp only at ihperm
        rw [hmapset] at ihperm
        rw [runForward, hkeym]
        simp only
        rw [hstep]
        rw [hstep] at ihcur ihsorted
        refine ⟨?_, ?_, ihcur⟩
        · exact (List.Perm.cons k ihperm).trans hperm.symm
        · rw [List.sorted_cons]
          refine ⟨?_, ihsorted⟩
          intro b hb2
          exact hbound b (ihperm.mem_iff.mp hb2)

end LevelDB

namespace LevelDB

/-- C3: for every comparator (modelled by an arbitrary linear order) and every
nonempty family of child iterators over sorted finite sequences,
`SeekToFirst` followed by repeated `Next` visits exactly the multiset union
of the children's entries (a permutation of their concatenation) in
non-decreasing order, and the iterator is invalid after the last entry. -/
theorem merging_forward_traversal [LinearOrder K] (childrenEntries : List (List K))
    (hn : 1 ≤ childrenEntries.length)
    (hs : ∀ l ∈ childrenEntries, l.Sorted (· ≤ ·)) :
    (runForward (childrenEntries.map List.length).sum
        (mkMergingIterator childrenEntries).seekToFirst).1.Perm
      childrenEntries.flatten ∧
    (runForward (childrenEntries.map List.length).sum
        (mkMergingIterator childrenEntries).seekToFirst).1.Sorted (· ≤ ·) ∧
    (runForward (childrenEntries.map List.length).sum
        (mkMergingIterator childrenEntries).seekToFirst).2.valid = false := by
  have hrem : (mkMergingIterator childrenEntries).seekToFirst.children.map ChildIter.rem
      = childrenEntries := by
    unfold mkMergingIterator MergingIterator.seekToFirst
    simp only [List.map_map]
    have hfun : (ChildIter.rem ∘ ChildIter.seekToFirst ∘
        fun es : List K => ChildIter.mk es 0) = id := by
      funext es
      simp [ChildIter.rem, ChildIter.seekToFirst]
    rw [hfun, List.map_id]
  have hinv : MergeInv (mkMergingIterator childrenEntries).seekToFirst := by
    refine ⟨?_, rfl, rfl⟩
    intro c hc
    unfold mkMergingIterator MergingIterator.seekToFirst at hc
    simp only [List.map_map, List.mem_map] at hc
    obtain ⟨es, hes, rfl⟩ := hc
    exact hs es hes
  have hfuel : ((mkMergingIterator childrenEntries).seekToFirst.children.map
      ChildIter.rem).flatten.length ≤ (childrenEntries.map List.length).sum := by
    rw [hrem, List.length_flatten]
  obtain ⟨hperm, hsorted, hcur⟩ :=
    runForward_spec (childrenEntries.map List.length).sum
      (mkMergingIterator childrenEntries).seekToFirst hinv hfuel
  rw [hrem] at hperm
  refine ⟨hperm, hsorted, ?_⟩
  unfold MergingIterator.valid
  rw [hcur]
  rfl

/-- Witness for C3: two overlapping sorted children `[1, 3]` and `[2, 3]`. -/
theorem merging_forward_traversal_witness :
    1 ≤ [[1, 3], [2, 3]].length ∧
    (∀ l ∈ [[(1 : Nat), 3], [2, 3]], l.Sorted (· ≤ ·)) ∧
    ((runForward ([[(1 : Nat), 3], [2, 3]].map List.length).sum
        (mkMergingIterator [[(1 : Nat), 3], [2, 3]]).seekToFirst).1.Perm
      [[(1 : Nat), 3], [2, 3]].flatten ∧
    (runForward ([[(1 : Nat), 3], [2, 3]].map List.length).sum
        (mkMergingIterator [[(1 : Nat), 3], [2, 3]]).seekToFirst).1.Sorted (· ≤ ·) ∧
    (runForward ([[(1 : Nat), 3], [2, 3]].map List.length).sum
        (mkMergingIterator [[(1 : Nat), 3], [2, 3]]).seekToFirst).2.valid = false) :=
  ⟨by norm_num, by decide,
    merging_forward_traversal [[1, 3], [2, 3]] (by norm_num) (by decide)⟩

/-- C9: `NewMergingIterator` with zero children returns the (never valid)
empty iterator, with one child returns that child itself unwrapped, and only
with two or more children builds a `MergingIterator`. -/
theorem newMergingIterator_dispatch (ι : Type) (children : List ι) :
    (children.length = 0 →
      newMergingIterator children = .emptyIter ∧ emptyIteratorValid = false) ∧
    (children.length = 1 →
      ∃ c, children = [c] ∧ newMergingIterator children = .passthrough c) ∧
    (2 ≤ children.length → newMergingIterator children = .merging children) := by
  match children with
  | [] => exact ⟨fun _ => ⟨rfl, rfl⟩, by simp, by simp⟩
  | [c] =>
      refine ⟨by simp, fun _ => ⟨c, rfl, rfl⟩, by simp⟩
  | c1 :: c2 :: cs =>
      refine ⟨by simp, by simp, fun _ => rfl⟩

/-- Witness for C9 at the three concrete inputs `[]`, `[7]` and `[1, 2]`. -/
theorem newMergingIterator_dispatch_witness :
    (newMergingIterator ([] : List Nat) = .emptyIter ∧ emptyIteratorValid = false) ∧
    (∃ c, [7] = [c] ∧ newMergingIterator [(7 : Nat)] = .passthrough c) ∧
    newMergingIterator [(1 : Nat), 2] = .merging [1, 2] :=
  ⟨(newMergingIterator_dispatch Nat []).1 rfl,
    (newMergingIterator_dispatch Nat [7]).2.1 rfl,
    (newMergingIterator_dispatch Nat [1, 2]).2.2 (by norm_num)⟩

/-! ## WAL reader (db/log_reader.cc, db/log_reader.h)

Record-type and size constants are modelled from the spec (db/log_format.h is
not among the modelled sources): 32 KiB blocks, 7-byte headers
`checksum(4) || length(2, LE) || type(1)`, types Zero=0, Full=1, First=2,
Middle=3, Last=4; `kEof = kMaxRecordType + 1`, `kBadRecord =
kMaxRecordType + 2` are from log_reader.h.  The file is a byte list read
sequentially; reads never fail in the model (environment I/O errors are out
of scope).  `crc32c::Value` (whose table-driven body is not among the
modelled sources) is a parameter `crc`.  The reporter is modelled as always
installed; its `Corruption(bytes, reason)` calls are accumulated in
`reports`. -/

def kLogBlockSize : Nat := 32768
def kHeaderSize : Nat := 7
def kZeroType : Nat := 0
def kFullType : Nat := 1
def kFirstType : Nat := 2
def kMiddleType : Nat := 3
def kLastType : Nat := 4
def kEof : Nat := 5
def kBadRecord : Nat := 6

/-- The corruption reason strings of db/log_reader.cc. -/
def reasonBadRecordLength : String := "bad record length"
def reasonChecksumMismatch : String := "checksum mismatch"
def reasonPartialNoEnd1 : String := "partial record without end(1)"
def reasonPartialNoEnd2 : String := "partial record without end(2)"
def reasonMissingStart1 : String := "missing start of fragmented record(1)"
def reasonMissingStart2 : String := "missing start of fragmented record(2)"
def reasonErrorInMiddle : String := "error in middle of record"
def reasonUnknownType : String := "unknown record type"

/-- uint64 wrapping subtraction `a - b` (b already below `2^64`). -/
def sub64 (a b : Nat) : Nat := (a + 2 ^ 64 - b % 2 ^ 64) % 2 ^ 64

/-- `DecodeFixed32` (util/coding.h, inline in src/unnamed/part_000, lines
184-192): read a little-endian 32-bit integer from the first four bytes.
The source ORs the bytes shifted to disjoint bit ranges; since each byte of
a file is below 256 the shifted summands have disjoint bits, so the OR
equals this sum. -/
def decodeFixed32 (l : List Nat) : Nat :=
  l.getD 0 0 + l.getD 1 0 * 2 ^ 8 + l.getD 2 0 * 2 ^ 16 + l.getD 3 0 * 2 ^ 24

/-- The mutable state of `log::Reader`. -/
structure LogReader where
  checksum : Bool
  filePos : Nat
  buffer : List Nat
  eof : Bool
  lastRecordOffset : Nat
  endOfBufferOffset : Nat
  initialOffset : Nat
  resyncing : Bool
  reports : List (Nat × String)
  deriving DecidableEq, Repr

/-- The `Reader` constructor: empty buffer, `eof_ = false`, zero offsets,
`resyncing_ = initial_offset > 0`. -/
def mkLogReader (checksum : Bool) (initialOffset : Nat) : LogReader :=
  { checksum := checksum, filePos := 0, buffer := [], eof := false,
    lastRecordOffset := 0, endOfBufferOffset := 0,
    initialOffset := initialOffset, resyncing := decide (initialOffset > 0),
    reports := [] }

/-- `Reader::ReportDrop`: forwards to the reporter only when the dropped
region does not lie entirely before `initial_offset_` (uint64 arithmetic). -/
def LogReader.reportDrop (s : LogReader) (bytes : Nat) (reason : String) : LogReader :=
  if s.initialOffset ≤ sub64 (sub64 s.endOfBufferOffset s.buffer.length) bytes then
    { s with reports := s.reports ++ [(bytes, reason)] }
  else s

/-- The declared payload length in a physical-record header:
`a | (b << 8)` from header bytes 4 and 5. -/
def headerLength (buf : List Nat) : Nat := buf.getD 4 0 ||| (buf.getD 5 0 <<< 8)

/-- `Reader::SkipToInitialBlock`: skip to the start of the block containing
`initial_offset_` (or the next block when the offset is in the trailer). -/
def LogReader.skipToInitialBlock (s : LogReader) : LogReader :=
  let offsetInBlock := s.initialOffset % kLogBlockSize
  let blockStart0 := s.initialOffset - offsetInBlock
  let blockStart :=
    if offsetInBlock > kLogBlockSize - 6 then blockStart0 + kLogBlockSize
    else blockStart0
  { s with endOfBufferOffset := blockStart, filePos := s.filePos + blockStart }

/-- The parsing portion of `Reader::ReadPhysicalRecord` (db/log_reader.cc),
reached once the buffer holds at least a full header: decode the header,
check the declared length against the buffer, skip zero-type padding, check
the CRC, drop records that start before `initial_offset_`, and otherwise
return the fragment. -/
def parsePhysicalRecord (crc : List Nat → Nat) (s : LogReader) :
    Nat × List Nat × LogReader :=
  let length := headerLength s.buffer
  let rtype := s.buffer.getD 6 0
  if kHeaderSize + length > s.buffer.length then
    let dropSize := s.buffer.length
    let s1 := { s with buffer := ([] : List Nat) }
    if s.eof then
      -- the writer died mid-record: EOF, no corruption report
      (kEof, [], s1)
    else
      (kBadRecord, [], s1.reportDrop dropSize reasonBadRecordLength)
  else if rtype = kZeroType ∧ length = 0 then
    (kBadRecord, [], { s with buffer := ([] : List Nat) })
  else if s.checksum ∧
      crc ((s.buffer.drop 6).take (1 + length)) ≠ crcUnmask (decodeFixed32 s.buffer) then
    let dropSize := s.buffer.length
    let s1 := { s with buffer := ([] : List Nat) }
    (kBadRecord, [], s1.reportDrop dropSize reasonChecksumMismatch)
  else
    let s1 := { s with buffer := s.buffer.drop (kHeaderSize + length) }
    if sub64 (sub64 (sub64 s1.endOfBufferOffset s1.buffer.length) kHeaderSize) length
        < s1.initialOffset then
      -- physical record started before initial_offset: skip it
      (kBadRecord, [], s1)
    else
      (rtype, (s.buffer.drop kHeaderSize).take length, s1)

/-- `Reader::ReadPhysicalRecord` (db/log_reader.cc): refill the buffer one
32 KiB block at a time, then parse one physical record from it.  Returns the
record type (or `kEof` / `kBadRecord`), the payload fragment, and the new
state. -/
def readPhysicalRecord (crc : List Nat → Nat) (file : List Nat) (s : LogReader) :
    Nat × List Nat × LogReader :=
  if hsmall : s.buffer.length < kHeaderSize then
    if heof : s.eof then
      -- truncated header at the end of the file: report EOF, not an error
      (kEof, [], { s with buffer := [] })
    else
      -- last read was a full read, so the short tail is a trailer to skip
      let chunk := (file.drop s.filePos).take kLogBlockSize
      readPhysicalRecord crc file
        { s with buffer := chunk, filePos := s.filePos + chunk.length,
                 endOfBufferOffset := s.endOfBufferOffset + chunk.length,
                 eof := decide (chunk.length < kLogBlockSize) }
  else
    parsePhysicalRecord crc s
  termination_by file.length - s.filePos + (if s.eof then 0 else 1)
  decreasing_by
    have hlen : (List.take kLogBlockSize (List.drop s.filePos file)).length
        = min kLogBlockSize (file.length - s.filePos) := by
      rw [List.length_take, List.length_drop]
    rw [if_neg heof]
    by_cases hfull : (List.take kLogBlockSize (List.drop s.filePos file)).length
        < kLogBlockSize
    · rw [if_pos (decide_eq_true hfull)]
      unfold kLogBlockSize at hlen hfull ⊢
      omega
    · rw [if_neg (by simp only [decide_eq_true_eq]; exact hfull)]
      unfold kLogBlockSize at hlen hfull ⊢
      omega

lemma readPhysicalRecord_refill (crc : List Nat → Nat) (file : List Nat) (s : LogReader)
    (hsmall : s.buffer.length < kHeaderSize) (heof : s.eof = false) :
    readPhysicalRecord crc file s = readPhysicalRecord crc file
      { s with buffer := (file.drop s.filePos).take kLogBlockSize,
               filePos := s.filePos + ((file.drop s.filePos).take kLogBlockSize).length,
               endOfBufferOffset :=
                 s.endOfBufferOffset + ((file.drop s.filePos).take kLogBlockSize).length,
               eof := decide (((file.drop s.filePos).take kLogBlockSize).length
                 < kLogBlockSize) } := by
  rw [readPhysicalRecord]
  rw [dif_pos hsmall, dif_neg (by rw [heof]; exact Bool.false_ne_true)]

lemma readPhysicalRecord_parse (crc : List Nat → Nat) (file : List Nat) (s : LogReader)
    (hbig : ¬ s.buffer.length < kHeaderSize) :
    readPhysicalRecord crc file s = parsePhysicalRecord crc s := by
  rw [readPhysicalRecord, dif_neg hbig]

/-- The loop-local state of `Reader::ReadRecord`: the reader itself, the
`scratch` accumulator, the `in_fragmented_record` flag and
`prospective_record_offset`. -/
structure RRState where
  rs : LogReader
  scratch : List Nat
  inFragmented : Bool
  prospectiveOffset : Nat
  deriving DecidableEq, Repr

/-- One iteration of the `ReadRecord` loop after the resyncing check: the
`switch (record_type)`.  `Sum.inl` is a `return` from `ReadRecord`
(delivered flag, record bytes, final reader state); `Sum.inr` continues the
loop. -/
def readRecordSwitch (rtype : Nat) (fragment : List Nat) (physicalRecordOffset : Nat)
    (t : RRState) : (Bool × List Nat × LogReader) ⊕ RRState :=
  if rtype = kFullType then
    let rs1 :=
      if t.inFragmented ∧ t.scratch ≠ [] then
        t.rs.reportDrop t.scratch.length reasonPartialNoEnd1
      else t.rs
    .inl (true, fragment, { rs1 with lastRecordOffset := physicalRecordOffset })
  else if rtype = kFirstType then
    let rs1 :=
      if t.inFragmented ∧ t.scratch ≠ [] then
        t.rs.reportDrop t.scratch.length reasonPartialNoEnd2
      else t.rs
    .inr { rs := rs1, scratch := fragment, inFragmented := true,
           prospectiveOffset := physicalRecordOffset }
  else if rtype = kMiddleType then
    if ¬t.inFragmented then
      .inr { t with rs := t.rs.reportDrop fragment.length reasonMissingStart1 }
    else
      .inr { t with scratch := t.scratch ++ fragment }
  else if rtype = kLastType then
    if ¬t.inFragmented then
      .inr { t with rs := t.rs.reportDrop fragment.length reasonMissingStart2 }
    else
      .inl (true, t.scratch ++ fragment,
        { t.rs with lastRecordOffset := t.prospectiveOffset })
  else if rtype = kEof then
    .inl (false, [], t.rs)
  else if rtype = kBadRecord then
    if t.inFragmented then
      .inr { rs := t.rs.reportDrop t.scratch.length reasonErrorInMiddle,
             scratch := [], inFragmented := false,
             prospectiveOffset := t.prospectiveOffset }
    else
      .inr t
  else
    .inr { rs := t.rs.reportDrop
                   (fragment.length + (if t.inFragmented then t.scratch.length else 0))
                   reasonUnknownType,
           scratch := [], inFragmented := false,
           prospectiveOffset := t.prospectiveOffset }

/-- One full iteration of the `ReadRecord` loop: read a physical record,
compute its offset, apply the resyncing rule, then the switch. -/
def readRecordBody (crc : List Nat → Nat) (file : List Nat) (t : RRState) :
    (Bool × List Nat × LogReader) ⊕ RRState :=
  let r := readPhysicalRecord crc file t.rs
  let rtype := r.1
  let fragment := r.2.1
  let s1 := r.2.2
  let physicalRecordOffset :=
    sub64 (sub64 (sub64 s1.endOfBufferOffset s1.buffer.length) kHeaderSize)
      fragment.length
  if s1.resyncing then
    if rtype = kMiddleType then
      .inr { t with rs := s1 }
    else if rtype = kLastType then
      .inr { t with rs := { s1 with resyncing := false } }
    else
      readRecordSwitch rtype fragment physicalRecordOffset
        { t with rs := { s1 with resyncing := false } }
  else
    readRecordSwitch rtype fragment physicalRecordOffset { t with rs := s1 }

/-- The `while (true)` loop of `ReadRecord`, with fuel.  The top-level entry
point supplies fuel ample for any input (every iteration either returns or
consumes at least one header's worth of input). -/
def readRecordLoop (crc : List Nat → Nat) (file : List Nat) :
    Nat → RRState → Bool × List Nat × LogReader
  | 0, t => (false, [], t.rs)
  | fuel + 1, t =>
      match readRecordBody crc file t with
      | .inl r => r
      | .inr t2 => readRecordLoop crc file fuel t2

/-- `Reader::ReadRecord` (db/log_reader.cc): skip to the initial block when
behind `initial_offset_`, then assemble the next logical record. -/
def readRecord (crc : List Nat → Nat) (file : List Nat) (s : LogReader) :
    Bool × List Nat × LogReader :=
  let s1 := if s.lastRecordOffset < s.initialOffset then s.skipToInitialBlock else s
  readRecordLoop crc file (file.length + s1.buffer.length + 2)
    { rs := s1, scratch := [], inFragmented := false, prospectiveOffset := 0 }

lemma parse_bad_length (crc : List Nat → Nat) (s : LogReader)
    (hbad : s.buffer.length < kHeaderSize + headerLength s.buffer) :
    parsePhysicalRecord crc s =
      if s.eof then (kEof, [], { s with buffer := [] })
      else (kBadRecord, [],
        ({ s with buffer := ([] : List Nat) } : LogReader).reportDrop
          s.buffer.length reasonBadRecordLength) := by
  rw [parsePhysicalRecord]
  simp only
  rw [if_pos (by omega)]

end LevelDB

namespace LevelDB

/-- C4 amended: whenever the WAL reader parses a physical-record header whose
declared length plus the 7-byte header exceeds the bytes remaining in its
buffer: if end-of-file has not yet been reached it drops the whole buffer
and returns the bad-record indication, reporting a corruption of the dropped
buffer size unless the dropped region lies before the reader's
`initial_offset_` (drops before the initial offset are silently skipped); if
end-of-file has been reached it returns EOF without reporting any
corruption (a torn tail write is not corruption). -/
theorem readPhysicalRecord_bad_length (crc : List Nat → Nat) (file : List Nat)
    (s : LogReader) (hlen : kHeaderSize ≤ s.buffer.length)
    (hbad : s.buffer.length < kHeaderSize + headerLength s.buffer) :
    (s.eof = false →
      readPhysicalRecord crc file s =
        (kBadRecord, [],
          if s.initialOffset ≤ sub64 (sub64 s.endOfBufferOffset 0) s.buffer.length
          then { s with buffer := [],
                        reports := s.reports
                          ++ [(s.buffer.length, reasonBadRecordLength)] }
          else { s with buffer := [] })) ∧
    (s.eof = true →
      readPhysicalRecord crc file s = (kEof, [], { s with buffer := [] })) := by
  have hglue : readPhysicalRecord crc file s = parsePhysicalRecord crc s :=
    readPhysicalRecord_parse crc file s (by unfold kHeaderSize at *; omega)
  rw [hglue, parse_bad_length crc s hbad]
  constructor
  · intro heof
    rw [heof]
    simp only [Bool.false_eq_true, if_false]
    unfold LogReader.reportDrop
    simp only [List.length_nil]
  · intro heof
    rw [heof]
    simp only [if_true]

/-- Witness for C4 (amended): a 10-byte buffer whose header declares a 9-byte
payload, with `eof` still false and `initial_offset = 0`. -/
theorem readPhysicalRecord_bad_length_witness :
    (kHeaderSize ≤ ([0, 0, 0, 0, 9, 0, 1, 1, 2, 3] : List Nat).length ∧
      ([0, 0, 0, 0, 9, 0, 1, 1, 2, 3] : List Nat).length
        < kHeaderSize + headerLength [0, 0, 0, 0, 9, 0, 1, 1, 2, 3]) ∧
    readPhysicalRecord (fun _ => 0) []
        { checksum := false, filePos := 0,
          buffer := [0, 0, 0, 0, 9, 0, 1, 1, 2, 3], eof := false,
          lastRecordOffset := 0, endOfBufferOffset := 10, initialOffset := 0,
          resyncing := false, reports := [] } =
      (kBadRecord, [],
        { checksum := false, filePos := 0, buffer := [], eof := false,
          lastRecordOffset := 0, endOfBufferOffset := 10, initialOffset := 0,
          resyncing := false, reports := [(10, reasonBadRecordLength)] }) := by
  refine ⟨⟨by decide, by decide⟩, ?_⟩
  have h := (readPhysicalRecord_bad_length (fun _ => 0) []
      { checksum := false, filePos := 0,
        buffer := [0, 0, 0, 0, 9, 0, 1, 1, 2, 3], eof := false,
        lastRecordOffset := 0, endOfBufferOffset := 10, initialOffset := 0,
        resyncing := false, reports := [] } (by decide) (by decide)).1 rfl
  rw [h]
  norm_num [sub64]

/-- A 32768-byte WAL file whose first physical-record header declares a
65535-byte payload: `7 + 65535` far exceeds the single 32768-byte block. -/
def cexFile4 : List Nat := [0, 0, 0, 0, 255, 255, 1] ++ List.replicate 32761 0

/-- The reader state reached by a fresh `Reader` with `initial_offset = 1`
on `cexFile4` right before parsing: the full first block has been read into
the buffer (`eof_` still false). -/
def cexReaderMid : LogReader :=
  { checksum := false, filePos := 32768, buffer := cexFile4, eof := false,
    lastRecordOffset := 0, endOfBufferOffset := 32768, initialOffset := 1,
    resyncing := true, reports := [] }

/-- C4 counterexample: on `cexFile4` with `initial_offset = 1`, the first
`ReadPhysicalRecord` call of a fresh reader reaches state `cexReaderMid`,
parses a header whose declared length plus 7 exceeds the buffer while
end-of-file has not been reached, and returns the bad-record indication
WITHOUT reporting any corruption (the drop offset 0 is below
`initial_offset`), contradicting the claim that a corruption of the dropped
buffer size is reported in this situation. -/
theorem readPhysicalRecord_report_counterexample :
    readPhysicalRecord (fun _ => 0) cexFile4 ((mkLogReader false 1).skipToInitialBlock)
        = readPhysicalRecord (fun _ => 0) cexFile4 cexReaderMid ∧
      cexReaderMid.eof = false ∧
      cexReaderMid.buffer.length < kHeaderSize + headerLength cexReaderMid.buffer ∧
      (readPhysicalRecord (fun _ => 0) cexFile4 cexReaderMid).1 = kBadRecord ∧
      (readPhysicalRecord (fun _ => 0) cexFile4 cexReaderMid).2.2.reports = [] := by
  have hlen32 : cexFile4.length = 32768 := by
    unfold cexFile4
    rw [List.length_append, List.length_replicate]
    norm_num
  have hheader : headerLength cexFile4 = 65535 := by
    unfold headerLength cexFile4
    rw [List.getD_append _ _ _ 4 (by norm_num), List.getD_append _ _ _ 5 (by norm_num)]
    decide
  have hbadmid : cexReaderMid.buffer.length < kHeaderSize + headerLength cexReaderMid.buffer := by
    show cexFile4.length < kHeaderSize + headerLength cexFile4
    rw [hlen32, hheader]
    decide
  have hbig : ¬ cexReaderMid.buffer.length < kHeaderSize := by
    show ¬ cexFile4.length < kHeaderSize
    rw [hlen32]
    decide
  have hparse := readPhysicalRecord_parse (fun _ => 0) cexFile4 cexReaderMid hbig
  have hresult := parse_bad_length (fun _ => 0) cexReaderMid hbadmid
  refine ⟨?_, rfl, hbadmid, ?_, ?_⟩
  · rw [readPhysicalRecord_refill (fun _ => 0) cexFile4
      ((mkLogReader false 1).skipToInitialBlock) (by decide) (by decide)]
    have hchunk : (cexFile4.drop ((mkLogReader false 1).skipToInitialBlock).filePos).take
        kLogBlockSize = cexFile4 := by
      show (cexFile4.drop 0).take kLogBlockSize = cexFile4
      rw [List.drop_zero]
      exact List.take_of_length_le (by rw [hlen32]; unfold kLogBlockSize; omega)
    refine congrArg _ ?_
    rw [hchunk, hlen32]
    rfl
  · rw [hparse, hresult]
    have heof : cexReaderMid.eof = false := rfl
    rw [heof]
    simp only [Bool.false_eq_true, if_false]
  · rw [hparse, hresult]
    show (({ cexReaderMid with buffer := ([] : List Nat) } : LogReader).reportDrop
      cexReaderMid.buffer.length reasonBadRecordLength).reports = []
    have hdrop : cexReaderMid.buffer.length = 32768 := hlen32
    rw [hdrop]
    unfold LogReader.reportDrop
    rw [if_neg (by norm_num [sub64, cexReaderMid])]
    rfl

lemma parsePhysicalRecord_resyncing (crc : List Nat → Nat) (s : LogReader) :
    (parsePhysicalRecord crc s).2.2.resyncing = s.resyncing := by
  rw [parsePhysicalRecord]
  simp only [LogReader.reportDrop]
  repeat' split
  all_goals rfl

lemma readPhysicalRecord_resyncing (crc : List Nat → Nat) (file : List Nat)
    (s : LogReader) : (readPhysicalRecord crc file s).2.2.resyncing = s.resyncing := by
  induction s using readPhysicalRecord.induct crc file with
  | case1 s hsmall heof =>
      rw [readPhysicalRecord, dif_pos hsmall, dif_pos heof]
  | case2 s hsmall heof chunk ih =>
      rw [readPhysicalRecord_refill crc file s hsmall (by simpa using heof)]
      exact ih
  | case3 s hbig =>
      rw [readPhysicalRecord_parse crc file s hbig]
      exact parsePhysicalRecord_resyncing crc s

end LevelDB

namespace LevelDB

/-- C5 amended: a Reader constructed with nonzero `initial_offset` starts in
resyncing mode.  While resyncing, a `Middle` fragment is dropped (the loop
continues, nothing is delivered or assembled and the loop body itself
reports nothing), a `Last` fragment is likewise dropped and also ends
resyncing mode, and ANY other physical-record outcome — in particular the
first `Full` or `First` fragment, but also a skipped or bad record — ends
resyncing mode and is processed by the normal switch. -/
theorem readRecord_resyncing_step (crc : List Nat → Nat) (file : List Nat)
    (t : RRState) (hres : t.rs.resyncing = true) :
    ((readPhysicalRecord crc file t.rs).1 = kMiddleType →
      readRecordBody crc file t
        = .inr { t with rs := (readPhysicalRecord crc file t.rs).2.2 }) ∧
    ((readPhysicalRecord crc file t.rs).1 = kLastType →
      readRecordBody crc file t
        = .inr { t with
            rs := { (readPhysicalRecord crc file t.rs).2.2 with resyncing := false } }) ∧
    ((readPhysicalRecord crc file t.rs).1 ≠ kMiddleType →
      (readPhysicalRecord crc file t.rs).1 ≠ kLastType →
      readRecordBody crc file t
        = readRecordSwitch (readPhysicalRecord crc file t.rs).1
            (readPhysicalRecord crc file t.rs).2.1
            (sub64 (sub64 (sub64 (readPhysicalRecord crc file t.rs).2.2.endOfBufferOffset
                (readPhysicalRecord crc file t.rs).2.2.buffer.length) kHeaderSize)
              (readPhysicalRecord crc file t.rs).2.1.length)
            { t with
              rs := { (readPhysicalRecord crc file t.rs).2.2 with resyncing := false } }) := by
  have hsync : (readPhysicalRecord crc file t.rs).2.2.resyncing = true :=
    (readPhysicalRecord_resyncing crc file t.rs).trans hres
  refine ⟨?_, ?_, ?_⟩
  · intro hmid
    rw [readRecordBody]
    simp only [hsync, if_true, hmid, if_pos rfl]
  · intro hlast
    rw [readRecordBody]
    have hnotmid : ¬ kLastType = kMiddleType := by decide
    simp only [hsync, if_true, hlast, if_neg hnotmid, if_pos rfl]
  · intro hmid hlast
    rw [readRecordBody]
    simp only [hsync, if_true, if_neg hmid, if_neg hlast]

/-- A tiny WAL file holding a single `Middle` fragment with a 1-byte
payload. -/
def c5wFile : List Nat := [0, 0, 0, 0, 1, 0, 3, 5]

/-- The loop state of a fresh reader with `initial_offset = 10`, after the
skip-to-initial-block step. -/
def c5wt : RRState :=
  { rs := (mkLogReader false 10).skipToInitialBlock, scratch := [],
    inFragmented := false, prospectiveOffset := 0 }

/-- Witness for C5 (amended) at a concrete resyncing state. -/
theorem readRecord_resyncing_step_witness :
    c5wt.rs.resyncing = true ∧
    ((readPhysicalRecord (fun _ => 0) c5wFile c5wt.rs).1 = kMiddleType →
      readRecordBody (fun _ => 0) c5wFile c5wt
        = .inr { c5wt with rs := (readPhysicalRecord (fun _ => 0) c5wFile c5wt.rs).2.2 }) :=
  ⟨rfl, (readRecord_resyncing_step (fun _ => 0) c5wFile c5wt rfl).1⟩

lemma readRecordLoop_continue (crc : List Nat → Nat) (file : List Nat) (fuel : Nat)
    (t t2 : RRState) (h : readRecordBody crc file t = .inr t2) :
    readRecordLoop crc file (fuel + 1) t = readRecordLoop crc file fuel t2 := by
  rw [readRecordLoop, h]

lemma readRecordLoop_return (crc : List Nat → Nat) (file : List Nat) (fuel : Nat)
    (t : RRState) (r : Bool × List Nat × LogReader)
    (h : readRecordBody crc file t = .inl r) :
    readRecordLoop crc file (fuel + 1) t = r := by
  rw [readRecordLoop, h]

/-- A 30-byte WAL file: a `Middle` fragment with a 13-byte payload at offset
0, followed by a `Middle` fragment with payload `[7, 8, 9]` at offset 20.
There is no `Full` or `First` fragment anywhere in the file. -/
def cexFile5 : List Nat :=
  [0, 0, 0, 0, 13, 0, 3] ++ List.replicate 13 0 ++ ([0, 0, 0, 0, 3, 0, 3] ++ [7, 8, 9])

/-- The reader state after the first block of `cexFile5` has been read
(30 bytes, short read, so `eof_` is set). -/
def c5s1 : LogReader :=
  { checksum := false, filePos := 30, buffer := cexFile5, eof := true,
    lastRecordOffset := 0, endOfBufferOffset := 30, initialOffset := 10,
    resyncing := true, reports := [] }

/-- The loop state entering the first iteration of `ReadRecord` for a fresh
reader with `initial_offset = 10` on `cexFile5`. -/
def c5t0 : RRState :=
  { rs := (mkLogReader false 10).skipToInitialBlock, scratch := [],
    inFragmented := false, prospectiveOffset := 0 }

/-- The loop state after the first iteration: the first `Middle` fragment
started before `initial_offset`, so `ReadPhysicalRecord` returned
`kBadRecord`, which ended resyncing mode. -/
def c5t1 : RRState :=
  { rs := { checksum := false, filePos := 30, buffer := [0, 0, 0, 0, 3, 0, 3, 7, 8, 9],
            eof := true, lastRecordOffset := 0, endOfBufferOffset := 30,
            initialOffset := 10, resyncing := false, reports := [] },
    scratch := [], inFragmented := false, prospectiveOffset := 0 }

/-- The loop state after the second iteration: the second `Middle` fragment
(at offset 20, past `initial_offset`) hit the missing-start corruption
report instead of being silently dropped. -/
def c5t2 : RRState :=
  { rs := { checksum := false, filePos := 30, buffer := [], eof := true,
            lastRecordOffset := 0, endOfBufferOffset := 30, initialOffset := 10,
            resyncing := false, reports := [(3, reasonMissingStart1)] },
    scratch := [], inFragmented := false, prospectiveOffset := 0 }

/-- C5 counterexample: on `cexFile5` (which contains only `Middle` fragments
and no `Full` or `First` fragment) a Reader with `initial_offset = 10`
does NOT silently drop the `Middle` fragment at offset 20: `ReadRecord`
reports a 3-byte missing-start corruption for it, because resyncing mode was
already ended by the skipped record that started before `initial_offset`. -/
theorem readRecord_resync_counterexample :
    cexFile5.getD 6 0 = kMiddleType ∧
      (cexFile5.drop 20).getD 6 0 = kMiddleType ∧
      readRecord (fun _ => 0) cexFile5 (mkLogReader false 10)
        = (false, [], c5t2.rs) := by
  have hr1 : readPhysicalRecord (fun _ => 0) cexFile5 c5t0.rs
      = (kBadRecord, [], { c5s1 with buffer := [0, 0, 0, 0, 3, 0, 3, 7, 8, 9] }) := by
    have h1 : readPhysicalRecord (fun _ => 0) cexFile5 c5t0.rs
        = readPhysicalRecord (fun _ => 0) cexFile5 c5s1 := by
      rw [readPhysicalRecord_refill (fun _ => 0) cexFile5 c5t0.rs (by decide) (by decide)]
      refine congrArg _ ?_
      decide
    rw [h1, readPhysicalRecord_parse (fun _ => 0) cexFile5 c5s1 (by decide)]
    decide
  have hr2 : readPhysicalRecord (fun _ => 0) cexFile5 c5t1.rs
      = (kMiddleType, [7, 8, 9], { c5t1.rs with buffer := [] }) := by
    rw [readPhysicalRecord_parse (fun _ => 0) cexFile5 c5t1.rs (by decide)]
    decide
  have hr3 : readPhysicalRecord (fun _ => 0) cexFile5 c5t2.rs
      = (kEof, [], { c5t2.rs with buffer := [] }) := by
    rw [readPhysicalRecord]
    decide
  have hb1 : readRecordBody (fun _ => 0) cexFile5 c5t0 = .inr c5t1 := by
    rw [readRecordBody]
    simp only [hr1]
    decide
  have hb2 : readRecordBody (fun _ => 0) cexFile5 c5t1 = .inr c5t2 := by
    rw [readRecordBody]
    simp only [hr2]
    decide
  have hb3 : readRecordBody (fun _ => 0) cexFile5 c5t2 = .inl (false, [], c5t2.rs) := by
    rw [readRecordBody]
    simp only [hr3]
    decide
  refine ⟨by decide, by decide, ?_⟩
  rw [readRecord]
  have hcond : (mkLogReader false 10).lastRecordOffset < (mkLogReader false 10).initialOffset := by
    decide
  rw [if_pos hcond]
  have hfuel : cexFile5.length + ((mkLogReader false 10).skipToInitialBlock).buffer.length + 2
      = 30 + 1 + 1 := by decide
  rw [hfuel]
  show readRecordLoop (fun _ => 0) cexFile5 (30 + 1 + 1) c5t0 = (false, [], c5t2.rs)
  rw [readRecordLoop_continue (fun _ => 0) cexFile5 (30 + 1) c5t0 c5t1 hb1]
  rw [show (30 + 1 : Nat) = 30 + 1 from rfl]
  rw [readRecordLoop_continue (fun _ => 0) cexFile5 30 c5t1 c5t2 hb2]
  rw [show (30 : Nat) = 29 + 1 from rfl]
  rw [readRecordLoop_return (fun _ => 0) cexFile5 29 c5t2 (false, [], c5t2.rs) hb3]

end LevelDB

namespace LevelDB

/-! ## LRU cache shard (util/cache.cc)

One `LRUCache` shard.  Heap cells (`LRUHandle`) are addressed by abstract
ids; `entries` maps a live id to its handle (freeing an entry in `Unref`
removes it from the map).  The open-addressed `HandleTable` is modelled by
its map abstraction `table : key → Option id` (`Insert` replaces and
returns the previous same-key entry, `Remove` returns the removed one);
the two circular doubly-linked lists are modelled as id lists, oldest
first, with `LRU_Append` appending at the tail.  `value` and the deleter
callback play no role in the claims and are omitted.  Keys are `Nat`. -/

structure LRUHandle where
  key : Nat
  charge : Nat
  inCache : Bool
  refs : Nat

/-- Point update of a map. -/
def upd (f : Nat → Option α) (i : Nat) (v : Option α) : Nat → Option α :=
  fun j => if j = i then v else f j

structure LRUCacheShard where
  capacity : Nat
  usage : Nat
  entries : Nat → Option LRUHandle
  lru : List Nat
  inUse : List Nat
  table : Nat → Option Nat
  nextId : Nat

/-- A fresh shard with the given capacity (constructor + `SetCapacity`). -/
def initShard (capacity : Nat) : LRUCacheShard :=
  { capacity := capacity, usage := 0, entries := fun _ => none, lru := [],
    inUse := [], table := fun _ => none, nextId := 0 }

/-- `LRUCache::Ref`: move a sole-reference cached entry from `lru_` to
`in_use_`, then increment the reference count. -/
def Ref (s : LRUCacheShard) (i : Nat) : LRUCacheShard :=
  match s.entries i with
  | none => s
  | some e =>
      let s1 :=
        if e.refs = 1 ∧ e.inCache = true then
          { s with lru := s.lru.erase i, inUse := s.inUse.erase i ++ [i] }
        else s
      { s1 with entries := upd s1.entries i (some { e with refs := e.refs + 1 }) }

/-- `LRUCache::Unref`: decrement the reference count; free the cell at zero;
move a cached entry whose count drops to one from `in_use_` to `lru_`. -/
def Unref (s : LRUCacheShard) (i : Nat) : LRUCacheShard :=
  match s.entries i with
  | none => s
  | some e =>
      if e.refs ≤ 1 then
        { s with entries := upd s.entries i none }
      else if e.inCache = true ∧ e.refs = 2 then
        { s with entries := upd s.entries i (some { e with refs := e.refs - 1 }),
                 inUse := s.inUse.erase i, lru := s.lru.erase i ++ [i] }
      else
        { s with entries := upd s.entries i (some { e with refs := e.refs - 1 }) }

/-- `LRUCache::FinishErase`: finish removing an entry already removed from
the hash table: unlink it from its list, clear `in_cache`, subtract its
charge from `usage_`, and drop the cache's reference. -/
def FinishErase (s : LRUCacheShard) (oi : Option Nat) : LRUCacheShard :=
  match oi with
  | none => s
  | some i =>
      match s.entries i with
      | none => s
      | some e =>
          Unref { s with lru := s.lru.erase i, inUse := s.inUse.erase i,
                         usage := s.usage - e.charge,
                         entries := upd s.entries i (some { e with inCache := false }) } i

/-- `HandleTable::Insert` on the shard: map `k` to `i`, returning the
previously mapped id with the same key, if any. -/
def tableInsert (s : LRUCacheShard) (k i : Nat) : LRUCacheShard × Option Nat :=
  ({ s with table := upd s.table k (some i) }, s.table k)

/-- `HandleTable::Remove` on the shard: unmap `k`, returning the previously
mapped id, if any. -/
def tableRemove (s : LRUCacheShard) (k : Nat) : LRUCacheShard × Option Nat :=
  ({ s with table := upd s.table k none }, s.table k)

/-- The eviction loop at the end of `LRUCache::Insert`:
`while (usage_ > capacity_ && lru_.next != &lru_)` evict the oldest `lru_`
entry.  Fuel (`lru_` can only shrink) makes the recursion structural; every
caller passes `s.lru.length`, which suffices because each iteration removes
the head of `lru_`. -/
def evictLoop : Nat → LRUCacheShard → LRUCacheShard
  | 0, s => s
  | fuel + 1, s =>
      if s.capacity < s.usage then
        match s.lru.head? with
        | none => s
        | some old =>
            let k := match s.entries old with | some e => e.key | none => 0
            let r := tableRemove s k
            evictLoop fuel (FinishErase r.1 r.2)
      else s

/-- `LRUCache::Insert`: build a handle with one reference for the caller;
when caching is enabled add the cache's reference, put it on `in_use_`,
account its charge, insert into the table finishing off a displaced
same-key entry; then evict while over capacity.  Returns the handle id. -/
def Insert (s : LRUCacheShard) (k charge : Nat) : LRUCacheShard × Nat :=
  let i := s.nextId
  let e : LRUHandle := { key := k, charge := charge, inCache := false, refs := 1 }
  let s0 := { s with nextId := i + 1, entries := upd s.entries i (some e) }
  let s1 :=
    if 0 < s.capacity then
      let s1a := { s0 with
        entries := upd s0.entries i (some { e with refs := 2, inCache := true }),
        inUse := s0.inUse ++ [i], usage := s0.usage + charge }
      let r := tableInsert s1a k i
      FinishErase r.1 r.2
    else s0
  (evictLoop s1.lru.length s1, i)

/-- `LRUCache::Lookup`: hash-table probe; `Ref` on a hit. -/
def Lookup (s : LRUCacheShard) (k : Nat) : LRUCacheShard × Option Nat :=
  match s.table k with
  | none => (s, none)
  | some i => (Ref s i, some i)

/-- `LRUCache::Release`. -/
def Release (s : LRUCacheShard) (i : Nat) : LRUCacheShard := Unref s i

/-- `LRUCache::Erase`. -/
def Erase (s : LRUCacheShard) (k : Nat) : LRUCacheShard :=
  let r := tableRemove s k
  FinishErase r.1 r.2

/-- The loop of `LRUCache::Prune`, with the same fuel device as
`evictLoop`. -/
def pruneLoop : Nat → LRUCacheShard → LRUCacheShard
  | 0, s => s
  | fuel + 1, s =>
      match s.lru.head? with
      | none => s
      | some old =>
          let k := match s.entries old with | some e => e.key | none => 0
          let r := tableRemove s k
          pruneLoop fuel (FinishErase r.1 r.2)

/-- `LRUCache::Prune`. -/
def Prune (s : LRUCacheShard) : LRUCacheShard := pruneLoop s.lru.length s

/-- A client-visible shard operation. -/
inductive CacheOp where
  | insert (k charge : Nat)
  | lookup (k : Nat)
  | release (h : Nat)
  | erase (k : Nat)
  | prune

/-- Apply one operation.  A `release` is applied only to a handle the
client actually holds (its reference count exceeds the cache's own
reference): releasing a handle one does not hold is a client contract
violation in the C++ code. -/
def applyOp (s : LRUCacheShard) : CacheOp → LRUCacheShard
  | .insert k c => (Insert s k c).1
  | .lookup k => (Lookup s k).1
  | .release h =>
      match s.entries h with
      | some e => if (if e.inCache then 1 else 0) < e.refs then Release s h else s
      | none => s
  | .erase k => Erase s k
  | .prune => Prune s

def applyOps (s : LRUCacheShard) (ops : List CacheOp) : LRUCacheShard :=
  ops.foldl applyOp s

lemma upd_self (f : Nat → Option α) (i : Nat) (v : Option α) : upd f i v i = v := by
  simp [upd]

lemma upd_ne (f : Nat → Option α) (i : Nat) (v : Option α) (j : Nat) (h : j ≠ i) :
    upd f i v j = f j := by
  simp [upd, h]

/-- The strengthened per-shard invariant carried through every operation. -/
structure ShardInv (s : LRUCacheShard) : Prop where
  tableLive : ∀ k i, s.table k = some i →
    ∃ e, s.entries i = some e ∧ e.key = k ∧ e.inCache = true
  backlink : ∀ i e, s.entries i = some e → e.inCache = true → s.table e.key = some i
  cachedOnList : ∀ i e, s.entries i = some e → e.inCache = true →
    i ∈ s.lru ∨ i ∈ s.inUse
  uncachedOffLists : ∀ i e, s.entries i = some e → e.inCache = false →
    i ∉ s.lru ∧ i ∉ s.inUse
  listsLive : ∀ i, i ∈ s.lru ∨ i ∈ s.inUse →
    ∃ e, s.entries i = some e ∧ e.inCache = true
  lruRefs : ∀ i e, i ∈ s.lru → s.entries i = some e → e.refs = 1
  inUseRefs : ∀ i e, i ∈ s.inUse → s.entries i = some e → 2 ≤ e.refs
  disj : ∀ i, i ∈ s.lru → i ∉ s.inUse
  lruNodup : s.lru.Nodup
  inUseNodup : s.inUse.Nodup
  fresh : ∀ i e, s.entries i = some e → i < s.nextId

lemma Ref_none {s : LRUCacheShard} {i : Nat} (h : s.entries i = none) : Ref s i = s := by
  unfold Ref
  rw [h]

lemma Ref_move {s : LRUCacheShard} {i : Nat} {e : LRUHandle} (h : s.entries i = some e)
    (hc : e.refs = 1 ∧ e.inCache = true) :
    Ref s i = { s with lru := s.lru.erase i, inUse := s.inUse.erase i ++ [i],
                       entries := upd s.entries i (some { e with refs := e.refs + 1 }) } := by
  unfold Ref
  rw [h]
  simp only [if_pos hc]

lemma Ref_stay {s : LRUCacheShard} {i : Nat} {e : LRUHandle} (h : s.entries i = some e)
    (hc : ¬(e.refs = 1 ∧ e.inCache = true)) :
    Ref s i = { s with entries := upd s.entries i (some { e with refs := e.refs + 1 }) } := by
  unfold Ref
  rw [h]
  simp only [if_neg hc]

lemma Unref_none {s : LRUCacheShard} {i : Nat} (h : s.entries i = none) : Unref s i = s := by
  unfold Unref
  rw [h]

lemma Unref_free {s : LRUCacheShard} {i : Nat} {e : LRUHandle} (h : s.entries i = some e)
    (hr : e.refs ≤ 1) :
    Unref s i = { s with entries := upd s.entries i none } := by
  unfold Unref
  rw [h]
  simp only [if_pos hr]

lemma Unref_move {s : LRUCacheShard} {i : Nat} {e : LRUHandle} (h : s.entries i = some e)
    (hr : ¬ e.refs ≤ 1) (hc : e.inCache = true ∧ e.refs = 2) :
    Unref s i = { s with entries := upd s.entries i (some { e with refs := e.refs - 1 }),
                         inUse := s.inUse.erase i, lru := s.lru.erase i ++ [i] } := by
  unfold Unref
  rw [h]
  simp only [if_neg hr, if_pos hc]

lemma Unref_dec {s : LRUCacheShard} {i : Nat} {e : LRUHandle} (h : s.entries i = some e)
    (hr : ¬ e.refs ≤ 1) (hc : ¬(e.inCache = true ∧ e.refs = 2)) :
    Unref s i = { s with entries := upd s.entries i (some { e with refs := e.refs - 1 }) } := by
  unfold Unref
  rw [h]
  simp only [if_neg hr, if_neg hc]

lemma FinishErase_none {s : LRUCacheShard} : FinishErase s none = s := rfl

lemma FinishErase_dead {s : LRUCacheShard} {i : Nat} (h : s.entries i = none) :
    FinishErase s (some i) = s := by
  unfold FinishErase
  simp only [h]

lemma FinishErase_live {s : LRUCacheShard} {i : Nat} {e : LRUHandle}
    (h : s.entries i = some e) :
    FinishErase s (some i) =
      Unref { s with lru := s.lru.erase i, inUse := s.inUse.erase i,
                     usage := s.usage - e.charge,
                     entries := upd s.entries i (some { e with inCache := false }) } i := by
  unfold FinishErase
  simp only [h]

lemma ref_inv (s : LRUCacheShard) (i : Nat) (h : ShardInv s) : ShardInv (Ref s i) := by
  rcases he : s.entries i with _ | e
  · rw [Ref_none he]; exact h
  · by_cases hc : e.refs = 1 ∧ e.inCache = true
    · rw [Ref_move he hc]
      have hmemL : i ∈ s.lru := by
        rcases h.cachedOnList i e he hc.2 with hl | hu
        · exact hl
        · exact absurd (h.inUseRefs i e hu he) (by omega)
      have hnotU : i ∉ s.inUse := h.disj i hmemL
      refine ⟨?_, ?_, ?_, ?_, ?_, ?_, ?_, ?_, ?_, ?_, ?_⟩ <;> dsimp only
      · intro k j hkj
        obtain ⟨e2, he2, hk2, hic2⟩ := h.tableLive k j hkj
        by_cases hji : j = i
        · subst hji
          rw [he] at he2
          cases he2
          exact ⟨{ e with refs := e.refs + 1 }, upd_self _ _ _, hk2, hic2⟩
        · exact ⟨e2, by rw [upd_ne _ _ _ _ hji]; exact he2, hk2, hic2⟩
      · intro j e2 hje hic
        by_cases hji : j = i
        · subst hji
          rw [upd_self] at hje
          cases hje
          exact h.backlink j e he hc.2
        · rw [upd_ne _ _ _ _ hji] at hje
          exact h.backlink j e2 hje hic
      · intro j e2 hje hic
        by_cases hji : j = i
        · subst hji
          right
          simp
        · rw [upd_ne _ _ _ _ hji] at hje
          rcases h.cachedOnList j e2 hje hic with hl | hu
          · exact Or.inl (h.lruNodup.mem_erase_iff.mpr ⟨hji, hl⟩)
          · exact Or.inr (List.mem_append_left _ (h.inUseNodup.mem_erase_iff.mpr ⟨hji, hu⟩))
      · intro j e2 hje hic
        by_cases hji : j = i
        · subst hji
          rw [upd_self] at hje
          cases hje
          rw [hc.2] at hic
          cases hic
        · rw [upd_ne _ _ _ _ hji] at hje
          obtain ⟨hl, hu⟩ := h.uncachedOffLists j e2 hje hic
          refine ⟨fun hm => hl (List.mem_of_mem_erase hm), fun hm => ?_⟩
          rcases List.mem_append.mp hm with hm2 | hm2
          · exact hu (List.mem_of_mem_erase hm2)
          · exact hji (List.mem_singleton.mp hm2)
      · intro j hj
        by_cases hji : j = i
        · subst hji
          exact ⟨{ e with refs := e.refs + 1 }, upd_self _ _ _, hc.2⟩
        · have hmem : j ∈ s.lru ∨ j ∈ s.inUse := by
            rcases hj with hm | hm
            · exact Or.inl (List.mem_of_mem_erase hm)
            · rcases List.mem_append.mp hm with hm2 | hm2
              · exact Or.inr (List.mem_of_mem_erase hm2)
              · exact absurd (List.mem_singleton.mp hm2) hji
          obtain ⟨e2, he2, hic2⟩ := h.listsLive j hmem
          exact ⟨e2, by rw [upd_ne _ _ _ _ hji]; exact he2, hic2⟩
      · intro j e2 hj hje
        obtain ⟨hji, hjl⟩ := h.lruNodup.mem_erase_iff.mp hj
        rw [upd_ne _ _ _ _ hji] at hje
        exact h.lruRefs j e2 hjl hje
      · intro j e2 hj hje
        rcases List.mem_append.mp hj with hm | hm
        · obtain ⟨hji, hju⟩ := h.inUseNodup.mem_erase_iff.mp hm
          rw [upd_ne _ _ _ _ hji] at hje
          exact h.inUseRefs j e2 hju hje
        · have hji := List.mem_singleton.mp hm
          subst hji
          rw [upd_self] at hje
          cases hje
          show 2 ≤ e.refs + 1
          omega
      · intro j hj
        obtain ⟨hji, hjl⟩ := h.lruNodup.mem_erase_iff.mp hj
        intro hmem
        rcases List.mem_append.mp hmem with hm | hm
        · exact h.disj j hjl (List.mem_of_mem_erase hm)
        · exact hji (List.mem_singleton.mp hm)
      · exact h.lruNodup.erase i
      · refine List.Nodup.append (h.inUseNodup.erase i) (List.nodup_singleton i) ?_
        intro a ha hb
        rw [List.mem_singleton] at hb
        subst hb
        exact (h.inUseNodup.mem_erase_iff.mp ha).1 rfl
      · intro j e2 hje
        by_cases hji : j = i
        · subst hji
          exact h.fresh j e he
        · rw [upd_ne _ _ _ _ hji] at hje
          exact h.fresh j e2 hje
    · rw [Ref_stay he hc]
      have hnotL : i ∉ s.lru := by
        intro hl
        obtain ⟨e2, he2, hic2⟩ := h.listsLive i (Or.inl hl)
        rw [he] at he2
        cases he2
        exact hc ⟨h.lruRefs i e hl he, hic2⟩
      refine ⟨?_, ?_, ?_, ?_, ?_, ?_, ?_, h.disj, h.lruNodup, h.inUseNodup, ?_⟩ <;> dsimp only
      · intro k j hkj
        obtain ⟨e2, he2, hk2, hic2⟩ := h.tableLive k j hkj
        by_cases hji : j = i
        · subst hji
          rw [he] at he2
          cases he2
          exact ⟨{ e with refs := e.refs + 1 }, upd_self _ _ _, hk2, hic2⟩
        · exact ⟨e2, by rw [upd_ne _ _ _ _ hji]; exact he2, hk2, hic2⟩
      · intro j e2 hje hic
        by_cases hji : j = i
        · subst hji
          rw [upd_self] at hje
          cases hje
          exact h.backlink j e he hic
        · rw [upd_ne _ _ _ _ hji] at hje
          exact h.backlink j e2 hje hic
      · intro j e2 hje hic
        by_cases hji : j = i
        · subst hji
          rw [upd_self] at hje
          cases hje
          exact h.cachedOnList j e he hic
        · rw [upd_ne _ _ _ _ hji] at hje
          exact h.cachedOnList j e2 hje hic
      · intro j e2 hje hic
        by_cases hji : j = i
        · subst hji
          rw [upd_self] at hje
          cases hje
          exact h.uncachedOffLists j e he hic
        · rw [upd_ne _ _ _ _ hji] at hje
          exact h.uncachedOffLists j e2 hje hic
      · intro j hj
        obtain ⟨e2, he2, hic2⟩ := h.listsLive j hj
        by_cases hji : j = i
        · subst hji
          rw [he] at he2
          cases he2
          exact ⟨{ e with refs := e.refs + 1 }, upd_self _ _ _, hic2⟩
        · exact ⟨e2, by rw [upd_ne _ _ _ _ hji]; exact he2, hic2⟩
      · intro j e2 hj hje
        have hji : j ≠ i := fun hh => hnotL (hh ▸ hj)
        rw [upd_ne _ _ _ _ hji] at hje
        exact h.lruRefs j e2 hj hje
      · intro j e2 hj hje
        by_cases hji : j = i
        · subst hji
          rw [upd_self] at hje
          cases hje
          have := h.inUseRefs j e hj he
          show 2 ≤ e.refs + 1
          omega
        · rw [upd_ne _ _ _ _ hji] at hje
          exact h.inUseRefs j e2 hj hje
      · intro j e2 hje
        by_cases hji : j = i
        · subst hji
          exact h.fresh j e he
        · rw [upd_ne _ _ _ _ hji] at hje
          exact h.fresh j e2 hje

lemma unref_inv (s : LRUCacheShard) (i : Nat) (h : ShardInv s)
    (hpre : ∀ e, s.entries i = some e → e.refs ≤ 1 → e.inCache = false) :
    ShardInv (Unref s i) := by
  rcases he : s.entries i with _ | e
  · rw [Unref_none he]; exact h
  · by_cases hr : e.refs ≤ 1
    · rw [Unref_free he hr]
      have hic : e.inCache = false := hpre e he hr
      have hnl : i ∉ s.lru ∧ i ∉ s.inUse := h.uncachedOffLists i e he hic
      have hnotbl : ∀ k, s.table k ≠ some i := by
        intro k hk
        obtain ⟨e2, he2, _, hic2⟩ := h.tableLive k i hk
        rw [he] at he2
        cases he2
        rw [hic] at hic2
        cases hic2
      refine ⟨?_, ?_, ?_, ?_, ?_, ?_, ?_, h.disj, h.lruNodup, h.inUseNodup, ?_⟩ <;> dsimp only
      · intro k j hkj
        obtain ⟨e2, he2, hk2, hic2⟩ := h.tableLive k j hkj
        have hji : j ≠ i := by
          intro hh
          exact hnotbl k (hh ▸ hkj)
        exact ⟨e2, by rw [upd_ne _ _ _ _ hji]; exact he2, hk2, hic2⟩
      · intro j e2 hje hic2
        by_cases hji : j = i
        · subst hji
          rw [upd_self] at hje
          cases hje
        · rw [upd_ne _ _ _ _ hji] at hje
          exact h.backlink j e2 hje hic2
      · intro j e2 hje hic2
        by_cases hji : j = i
        · subst hji
          rw [upd_self] at hje
          cases hje
        · rw [upd_ne _ _ _ _ hji] at hje
          exact h.cachedOnList j e2 hje hic2
      · intro j e2 hje hic2
        by_cases hji : j = i
        · subst hji
          rw [upd_self] at hje
          cases hje
        · rw [upd_ne _ _ _ _ hji] at hje
          exact h.uncachedOffLists j e2 hje hic2
      · intro j hj
        obtain ⟨e2, he2, hic2⟩ := h.listsLive j hj
        have hji : j ≠ i := by
          intro hh
          subst hh
          rw [he] at he2
          cases he2
          rw [hic] at hic2
          cases hic2
        exact ⟨e2, by rw [upd_ne _ _ _ _ hji]; exact he2, hic2⟩
      · intro j e2 hj hje
        have hji : j ≠ i := fun hh => hnl.1 (hh ▸ hj)
        rw [upd_ne _ _ _ _ hji] at hje
        exact h.lruRefs j e2 hj hje
      · intro j e2 hj hje
        have hji : j ≠ i := fun hh => hnl.2 (hh ▸ hj)
        rw [upd_ne _ _ _ _ hji] at hje
        exact h.inUseRefs j e2 hj hje
      · intro j e2 hje
        by_cases hji : j = i
        · subst hji
          rw [upd_self] at hje
          cases hje
        · rw [upd_ne _ _ _ _ hji] at hje
          exact h.fresh j e2 hje
    · by_cases hc : e.inCache = true ∧ e.refs = 2
      · rw [Unref_move he hr hc]
        have hmemU : i ∈ s.inUse := by
          rcases h.cachedOnList i e he hc.1 with hl | hu
          · exact absurd (h.lruRefs i e hl he) (by omega)
          · exact hu
        have hnotL : i ∉ s.lru := by
          intro hl
          exact h.disj i hl hmemU
        refine ⟨?_, ?_, ?_, ?_, ?_, ?_, ?_, ?_, ?_, ?_, ?_⟩ <;> dsimp only
        · intro k j hkj
          obtain ⟨e2, he2, hk2, hic2⟩ := h.tableLive k j hkj
          by_cases hji : j = i
          · subst hji
            rw [he] at he2
            cases he2
            exact ⟨{ e with refs := e.refs - 1 }, upd_self _ _ _, hk2, hic2⟩
          · exact ⟨e2, by rw [upd_ne _ _ _ _ hji]; exact he2, hk2, hic2⟩
        · intro j e2 hje hic2
          by_cases hji : j = i
          · subst hji
            rw [upd_self] at hje
            cases hje
            exact h.backlink j e he hc.1
          · rw [upd_ne _ _ _ _ hji] at hje
            exact h.backlink j e2 hje hic2
        · intro j e2 hje hic2
          by_cases hji : j = i
          · subst hji
            left
            simp
          · rw [upd_ne _ _ _ _ hji] at hje
            rcases h.cachedOnList j e2 hje hic2 with hl | hu
            · exact Or.inl (List.mem_append_left _ (h.lruNodup.mem_erase_iff.mpr ⟨hji, hl⟩))
            · exact Or.inr (h.inUseNodup.mem_erase_iff.mpr ⟨hji, hu⟩)
        · intro j e2 hje hic2
          by_cases hji : j = i
          · subst hji
            rw [upd_self] at hje
            cases hje
            rw [hc.1] at hic2
            cases hic2
          · rw [upd_ne _ _ _ _ hji] at hje
            obtain ⟨hl, hu⟩ := h.uncachedOffLists j e2 hje hic2
            refine ⟨fun hm => ?_, fun hm => hu (List.mem_of_mem_erase hm)⟩
            rcases List.mem_append.mp hm with hm2 | hm2
            · exact hl (List.mem_of_mem_erase hm2)
            · exact hji (List.mem_singleton.mp hm2)
        · intro j hj
          by_cases hji : j = i
          · subst hji
            exact ⟨{ e with refs := e.refs - 1 }, upd_self _ _ _, hc.1⟩
          · have hmem : j ∈ s.lru ∨ j ∈ s.inUse := by
              rcases hj with hm | hm
              · rcases List.mem_append.mp hm with hm2 | hm2
                · exact Or.inl (List.mem_of_mem_erase hm2)
                · exact absurd (List.mem_singleton.mp hm2) hji
              · exact Or.inr (List.mem_of_mem_erase hm)
            obtain ⟨e2, he2, hic2⟩ := h.listsLive j hmem
            exact ⟨e2, by rw [upd_ne _ _ _ _ hji]; exact he2, hic2⟩
        · intro j e2 hj hje
          rcases List.mem_append.mp hj with hm | hm
          · obtain ⟨hji, hjl⟩ := h.lruNodup.mem_erase_iff.mp hm
            rw [upd_ne _ _ _ _ hji] at hje
            exact h.lruRefs j e2 hjl hje
          · have hji := List.mem_singleton.mp hm
            subst hji
            rw [upd_self] at hje
            cases hje
            show e.refs - 1 = 1
            omega
        · intro j e2 hj hje
          obtain ⟨hji, hju⟩ := h.inUseNodup.mem_erase_iff.mp hj
          rw [upd_ne _ _ _ _ hji] at hje
          exact h.inUseRefs j e2 hju hje
        · intro j hj
          intro hmem
          have hju := List.mem_of_mem_erase hmem
          rcases List.mem_append.mp hj with hm | hm
          · exact h.disj j (List.mem_of_mem_erase hm) hju
          · have hji := List.mem_singleton.mp hm
            subst hji
            exact (h.inUseNodup.mem_erase_iff.mp hmem).1 rfl
        · refine List.Nodup.append (h.lruNodup.erase i) (List.nodup_singleton i) ?_
          intro a ha hb
          rw [List.mem_singleton] at hb
          subst hb
          exact (h.lruNodup.mem_erase_iff.mp ha).1 rfl
        · exact h.inUseNodup.erase i
        · intro j e2 hje
          by_cases hji : j = i
          · subst hji
            exact h.fresh j e he
          · rw [upd_ne _ _ _ _ hji] at hje
            exact h.fresh j e2 hje
      · rw [Unref_dec he hr hc]
        have hnotL : i ∉ s.lru := by
          intro hl
          exact hr (le_of_eq (h.lruRefs i e hl he))
        refine ⟨?_, ?_, ?_, ?_, ?_, ?_, ?_, h.disj, h.lruNodup, h.inUseNodup, ?_⟩ <;> dsimp only
        · intro k j hkj
          obtain ⟨e2, he2, hk2, hic2⟩ := h.tableLive k j hkj
          by_cases hji : j = i
          · subst hji
            rw [he] at he2
            cases he2
            exact ⟨{ e with refs := e.refs - 1 }, upd_self _ _ _, hk2, hic2⟩
          · exact ⟨e2, by rw [upd_ne _ _ _ _ hji]; exact he2, hk2, hic2⟩
        · intro j e2 hje hic2
          by_cases hji : j = i
          · subst hji
            rw [upd_self] at hje
            cases hje
            exact h.backlink j e he hic2
          · rw [upd_ne _ _ _ _ hji] at hje
            exact h.backlink j e2 hje hic2
        · intro j e2 hje hic2
          by_cases hji : j = i
          · subst hji
            rw [upd_self] at hje
            cases hje
            exact h.cachedOnList j e he hic2
          · rw [upd_ne _ _ _ _ hji] at hje
            exact h.cachedOnList j e2 hje hic2
        · intro j e2 hje hic2
          by_cases hji : j = i
          · subst hji
            rw [upd_self] at hje
            cases hje
            exact h.uncachedOffLists j e he hic2
          · rw [upd_ne _ _ _ _ hji] at hje
            exact h.uncachedOffLists j e2 hje hic2
        · intro j hj
          obtain ⟨e2, he2, hic2⟩ := h.listsLive j hj
          by_cases hji : j = i
          · subst hji
            rw [he] at he2
            cases he2
            exact ⟨{ e with refs := e.refs - 1 }, upd_self _ _ _, hic2⟩
          · exact ⟨e2, by rw [upd_ne _ _ _ _ hji]; exact he2, hic2⟩
        · intro j e2 hj hje
          have hji : j ≠ i := fun hh => hnotL (hh ▸ hj)
          rw [upd_ne _ _ _ _ hji] at hje
          exact h.lruRefs j e2 hj hje
        · intro j e2 hj hje
          by_cases hji : j = i
          · subst hji
            rw [upd_self] at hje
            cases hje
            obtain ⟨e2, he2, hic2⟩ := h.listsLive j (Or.inr hj)
            rw [he] at he2
            cases he2
            have h2 := h.inUseRefs j e hj he
            have h3 : ¬ e.refs = 2 := fun hh => hc ⟨hic2, hh⟩
            show 2 ≤ e.refs - 1
            omega
          · rw [upd_ne _ _ _ _ hji] at hje
            exact h.inUseRefs j e2 hj hje
        · intro j e2 hje
          by_cases hji : j = i
          · subst hji
            exact h.fresh j e he
          · rw [upd_ne _ _ _ _ hji] at hje
            exact h.fresh j e2 hje

/-- The invariant in force just before a `FinishErase(x)` call: identical to
`ShardInv` except that the hash table need not point back to entry `x`
(its mapping has just been removed or displaced by the caller). -/
structure ShardInvX (s : LRUCacheShard) (x : Nat) : Prop where
  tableLive : ∀ k i, s.table k = some i →
    ∃ e, s.entries i = some e ∧ e.key = k ∧ e.inCache = true
  backlink : ∀ i e, s.entries i = some e → e.inCache = true → i ≠ x →
    s.table e.key = some i
  cachedOnList : ∀ i e, s.entries i = some e → e.inCache = true →
    i ∈ s.lru ∨ i ∈ s.inUse
  uncachedOffLists : ∀ i e, s.entries i = some e → e.inCache = false →
    i ∉ s.lru ∧ i ∉ s.inUse
  listsLive : ∀ i, i ∈ s.lru ∨ i ∈ s.inUse →
    ∃ e, s.entries i = some e ∧ e.inCache = true
  lruRefs : ∀ i e, i ∈ s.lru → s.entries i = some e → e.refs = 1
  inUseRefs : ∀ i e, i ∈ s.inUse → s.entries i = some e → 2 ≤ e.refs
  disj : ∀ i, i ∈ s.lru → i ∉ s.inUse
  lruNodup : s.lru.Nodup
  inUseNodup : s.inUse.Nodup
  fresh : ∀ i e, s.entries i = some e → i < s.nextId

lemma finishErase_live_inv (s : LRUCacheShard) (x : Nat) (e : LRUHandle)
    (hx : s.entries x = some e) (hic : e.inCache = true)
    (h : ShardInvX s x) (hnotbl : ∀ k, s.table k ≠ some x) :
    ShardInv (FinishErase s (some x)) := by
  rw [FinishErase_live hx]
  have hxne : ∀ (l : List Nat), l.Nodup → x ∉ l.erase x := by
    intro l hnd hm
    exact (hnd.mem_erase_iff.mp hm).1 rfl
  have hmid : ShardInv
      { s with lru := s.lru.erase x, inUse := s.inUse.erase x,
               usage := s.usage - e.charge,
               entries := upd s.entries x (some { e with inCache := false }) } := by
    refine ⟨?_, ?_, ?_, ?_, ?_, ?_, ?_, ?_, ?_, ?_, ?_⟩ <;> dsimp only
    · intro k j hkj
      obtain ⟨e2, he2, hk2, hic2⟩ := h.tableLive k j hkj
      have hji : j ≠ x := by
        intro hh
        exact hnotbl k (hh ▸ hkj)
      exact ⟨e2, by rw [upd_ne _ _ _ _ hji]; exact he2, hk2, hic2⟩
    · intro j e2 hje hic2
      by_cases hji : j = x
      · subst hji
        rw [upd_self] at hje
        cases hje
        cases hic2
      · rw [upd_ne _ _ _ _ hji] at hje
        exact h.backlink j e2 hje hic2 hji
    · intro j e2 hje hic2
      by_cases hji : j = x
      · subst hji
        rw [upd_self] at hje
        cases hje
        cases hic2
      · rw [upd_ne _ _ _ _ hji] at hje
        rcases h.cachedOnList j e2 hje hic2 with hl | hu
        · exact Or.inl (h.lruNodup.mem_erase_iff.mpr ⟨hji, hl⟩)
        · exact Or.inr (h.inUseNodup.mem_erase_iff.mpr ⟨hji, hu⟩)
    · intro j e2 hje hic2
      by_cases hji : j = x
      · subst hji
        exact ⟨hxne _ h.lruNodup, hxne _ h.inUseNodup⟩
      · rw [upd_ne _ _ _ _ hji] at hje
        obtain ⟨hl, hu⟩ := h.uncachedOffLists j e2 hje hic2
        exact ⟨fun hm => hl (List.mem_of_mem_erase hm),
          fun hm => hu (List.mem_of_mem_erase hm)⟩
    · intro j hj
      have hji : j ≠ x := by
        rcases hj with hm | hm
        · exact (h.lruNodup.mem_erase_iff.mp hm).1
        · exact (h.inUseNodup.mem_erase_iff.mp hm).1
      have hmem : j ∈ s.lru ∨ j ∈ s.inUse := by
        rcases hj with hm | hm
        · exact Or.inl (List.mem_of_mem_erase hm)
        · exact Or.inr (List.mem_of_mem_erase hm)
      obtain ⟨e2, he2, hic2⟩ := h.listsLive j hmem
      exact ⟨e2, by rw [upd_ne _ _ _ _ hji]; exact he2, hic2⟩
    · intro j e2 hj hje
      obtain ⟨hji, hjl⟩ := h.lruNodup.mem_erase_iff.mp hj
      rw [upd_ne _ _ _ _ hji] at hje
      exact h.lruRefs j e2 hjl hje
    · intro j e2 hj hje
      obtain ⟨hji, hju⟩ := h.inUseNodup.mem_erase_iff.mp hj
      rw [upd_ne _ _ _ _ hji] at hje
      exact h.inUseRefs j e2 hju hje
    · intro j hj hmem
      exact h.disj j (List.mem_of_mem_erase hj) (List.mem_of_mem_erase hmem)
    · exact h.lruNodup.erase x
    · exact h.inUseNodup.erase x
    · intro j e2 hje
      by_cases hji : j = x
      · subst hji
        exact h.fresh j e hx
      · rw [upd_ne _ _ _ _ hji] at hje
        exact h.fresh j e2 hje
  refine unref_inv _ x hmid ?_
  intro e2 he2 _
  dsimp only at he2
  rw [upd_self] at he2
  cases he2
  rfl

lemma eraseStep_inv (s : LRUCacheShard) (k : Nat) (h : ShardInv s) :
    ShardInv (FinishErase (tableRemove s k).1 (tableRemove s k).2) := by
  unfold tableRemove
  dsimp only
  rcases ht : s.table k with _ | old
  · rw [FinishErase_none]
    refine ⟨?_, ?_, h.cachedOnList, h.uncachedOffLists, h.listsLive, h.lruRefs,
      h.inUseRefs, h.disj, h.lruNodup, h.inUseNodup, h.fresh⟩ <;> dsimp only
    · intro k2 j hkj
      by_cases hk2 : k2 = k
      · subst hk2
        rw [upd_self] at hkj
        cases hkj
      · rw [upd_ne _ _ _ _ hk2] at hkj
        exact h.tableLive k2 j hkj
    · intro j e2 hje hic
      have hb := h.backlink j e2 hje hic
      have hkne : e2.key ≠ k := by
        intro hh
        rw [hh, ht] at hb
        cases hb
      rw [upd_ne _ _ _ _ hkne]
      exact hb
  · obtain ⟨e, he, hk, hic⟩ := h.tableLive k old ht
    subst hk
    refine finishErase_live_inv _ old e he hic ?_ ?_
    · refine ⟨?_, ?_, h.cachedOnList, h.uncachedOffLists, h.listsLive, h.lruRefs,
        h.inUseRefs, h.disj, h.lruNodup, h.inUseNodup, h.fresh⟩ <;> dsimp only
      · intro k2 j hkj
        by_cases hk2 : k2 = e.key
        · subst hk2
          rw [upd_self] at hkj
          cases hkj
        · rw [upd_ne _ _ _ _ hk2] at hkj
          exact h.tableLive k2 j hkj
      · intro j e2 hje hic2 hjo
        have hb := h.backlink j e2 hje hic2
        have hkne : e2.key ≠ e.key := by
          intro hh
          rw [hh, ht] at hb
          cases hb
          exact hjo rfl
        rw [upd_ne _ _ _ _ hkne]
        exact hb
    · intro k2 hk2
      dsimp only at hk2
      by_cases hkk : k2 = e.key
      · subst hkk
        rw [upd_self] at hk2
        cases hk2
      · rw [upd_ne _ _ _ _ hkk] at hk2
        obtain ⟨e2, he2, hk3, _⟩ := h.tableLive k2 old hk2
        rw [he] at he2
        cases he2
        exact hkk hk3.symm

lemma evict_inv : ∀ (fuel : Nat) (s : LRUCacheShard), ShardInv s →
    ShardInv (evictLoop fuel s) := by
  intro fuel
  induction fuel with
  | zero => intro s h; exact h
  | succ fuel ih =>
      intro s h
      rw [evictLoop]
      split
      · rcases hh : s.lru.head? with _ | old
        · simp only [hh]
          exact h
        · simp only [hh]
          exact ih _ (eraseStep_inv s _ h)
      · exact h

lemma prune_inv : ∀ (fuel : Nat) (s : LRUCacheShard), ShardInv s →
    ShardInv (pruneLoop fuel s) := by
  intro fuel
  induction fuel with
  | zero => intro s h; exact h
  | succ fuel ih =>
      intro s h
      rw [pruneLoop]
      rcases hh : s.lru.head? with _ | old
      · simp only [hh]
        exact h
      · simp only [hh]
        exact ih _ (eraseStep_inv s _ h)

lemma erase_inv (s : LRUCacheShard) (k : Nat) (h : ShardInv s) : ShardInv (Erase s k) :=
  eraseStep_inv s k h

lemma fresh_id_facts (s : LRUCacheShard) (h : ShardInv s) :
    s.entries s.nextId = none ∧ s.nextId ∉ s.lru ∧ s.nextId ∉ s.inUse ∧
      ∀ k, s.table k ≠ some s.nextId := by
  have h0 : s.entries s.nextId = none := by
    rcases hE : s.entries s.nextId with _ | e
    · rfl
    · exact absurd (h.fresh _ _ hE) (lt_irrefl _)
  refine ⟨h0, ?_, ?_, ?_⟩
  · intro hm
    obtain ⟨e, he, _⟩ := h.listsLive _ (Or.inl hm)
    rw [h0] at he
    cases he
  · intro hm
    obtain ⟨e, he, _⟩ := h.listsLive _ (Or.inr hm)
    rw [h0] at he
    cases he
  · intro k2 hk2
    obtain ⟨e, he, _, _⟩ := h.tableLive k2 _ hk2
    rw [h0] at he
    cases he

lemma insert_core_invX (s : LRUCacheShard) (k c x : Nat) (h : ShardInv s)
    (hx : ∀ j, s.table k = some j → j = x) :
    ShardInvX
      { capacity := s.capacity, usage := s.usage + c,
        entries := upd (upd s.entries s.nextId
            (some { key := k, charge := c, inCache := false, refs := 1 }))
          s.nextId (some { key := k, charge := c, inCache := true, refs := 2 }),
        lru := s.lru, inUse := s.inUse ++ [s.nextId],
        table := upd s.table k (some s.nextId), nextId := s.nextId + 1 } x := by
  obtain ⟨h0, hL, hU, hT⟩ := fresh_id_facts s h
  refine ⟨?_, ?_, ?_, ?_, ?_, ?_, ?_, ?_, ?_, ?_, ?_⟩ <;> dsimp only
  · intro k2 j hkj
    by_cases hk2 : k2 = k
    · subst hk2
      rw [upd_self] at hkj
      cases hkj
      exact ⟨_, upd_self _ _ _, rfl, rfl⟩
    · rw [upd_ne _ _ _ _ hk2] at hkj
      obtain ⟨e2, he2, hke2, hic2⟩ := h.tableLive k2 j hkj
      have hji : j ≠ s.nextId := fun hh => hT k2 (hh ▸ hkj)
      refine ⟨e2, ?_, hke2, hic2⟩
      rw [upd_ne _ _ _ _ hji, upd_ne _ _ _ _ hji]
      exact he2
  · intro j e2 hje hic2 hjx
    by_cases hji : j = s.nextId
    · subst hji
      rw [upd_self] at hje
      cases hje
      exact upd_self _ _ _
    · rw [upd_ne _ _ _ _ hji, upd_ne _ _ _ _ hji] at hje
      have hb := h.backlink j e2 hje hic2
      have hkne : e2.key ≠ k := by
        intro hh
        rw [hh] at hb
        exact hjx (hx j hb)
      rw [upd_ne _ _ _ _ hkne]
      exact hb
  · intro j e2 hje hic2
    by_cases hji : j = s.nextId
    · subst hji
      exact Or.inr (List.mem_append_right _ (List.mem_singleton.mpr rfl))
    · rw [upd_ne _ _ _ _ hji, upd_ne _ _ _ _ hji] at hje
      rcases h.cachedOnList j e2 hje hic2 with hm | hm
      · exact Or.inl hm
      · exact Or.inr (List.mem_append_left _ hm)
  · intro j e2 hje hic2
    by_cases hji : j = s.nextId
    · subst hji
      rw [upd_self] at hje
      cases hje
      cases hic2
    · rw [upd_ne _ _ _ _ hji, upd_ne _ _ _ _ hji] at hje
      obtain ⟨hnl, hnu⟩ := h.uncachedOffLists j e2 hje hic2
      refine ⟨hnl, ?_⟩
      intro hm
      rcases List.mem_append.mp hm with hm2 | hm2
      · exact hnu hm2
      · exact hji (List.mem_singleton.mp hm2)
  · intro j hj
    by_cases hji : j = s.nextId
    · subst hji
      exact ⟨_, upd_self _ _ _, rfl⟩
    · have hj2 : j ∈ s.lru ∨ j ∈ s.inUse := by
        rcases hj with hm | hm
        · exact Or.inl hm
        · rcases List.mem_append.mp hm with hm2 | hm2
          · exact Or.inr hm2
          · exact absurd (List.mem_singleton.mp hm2) hji
      obtain ⟨e2, he2, hic2⟩ := h.listsLive j hj2
      refine ⟨e2, ?_, hic2⟩
      rw [upd_ne _ _ _ _ hji, upd_ne _ _ _ _ hji]
      exact he2
  · intro j e2 hj hje
    have hji : j ≠ s.nextId := fun hh => hL (hh ▸ hj)
    rw [upd_ne _ _ _ _ hji, upd_ne _ _ _ _ hji] at hje
    exact h.lruRefs j e2 hj hje
  · intro j e2 hj hje
    by_cases hji : j = s.nextId
    · subst hji
      rw [upd_self] at hje
      cases hje
      exact Nat.le_refl 2
    · rcases List.mem_append.mp hj with hm | hm
      · rw [upd_ne _ _ _ _ hji, upd_ne _ _ _ _ hji] at hje
        exact h.inUseRefs j e2 hm hje
      · exact absurd (List.mem_singleton.mp hm) hji
  · intro j hj
    have hji : j ≠ s.nextId := fun hh => hL (hh ▸ hj)
    intro hm
    rcases List.mem_append.mp hm with hm2 | hm2
    · exact h.disj j hj hm2
    · exact hji (List.mem_singleton.mp hm2)
  · exact h.lruNodup
  · refine h.inUseNodup.append (List.nodup_singleton _) ?_
    intro a ha hb
    rw [List.mem_singleton] at hb
    subst hb
    exact hU ha
  · intro j e2 hje
    by_cases hji : j = s.nextId
    · subst hji
      exact Nat.lt_succ_self _
    · rw [upd_ne _ _ _ _ hji, upd_ne _ _ _ _ hji] at hje
      exact Nat.lt_succ_of_lt (h.fresh j e2 hje)

lemma insert_inv (s : LRUCacheShard) (k c : Nat) (h : ShardInv s) :
    ShardInv (Insert s k c).1 := by
  obtain ⟨h0, hL, hU, hT⟩ := fresh_id_facts s h
  unfold Insert
  dsimp only
  by_cases hcap : 0 < s.capacity
  · rw [if_pos hcap]
    unfold tableInsert
    dsimp only
    rcases hold : s.table k with _ | old
    · rw [FinishErase_none]
      apply evict_inv
      have X := insert_core_invX s k c s.nextId h (by
        intro j hj
        rw [hold] at hj
        cases hj)
      refine ⟨X.tableLive, ?_, X.cachedOnList, X.uncachedOffLists, X.listsLive,
        X.lruRefs, X.inUseRefs, X.disj, X.lruNodup, X.inUseNodup, X.fresh⟩
      intro j e2 hje hic2
      by_cases hji : j = s.nextId
      · subst hji
        dsimp only at hje
        rw [upd_self] at hje
        cases hje
        exact upd_self _ _ _
      · exact X.backlink j e2 hje hic2 hji
    · obtain ⟨eOld, heOld, hkOld, hicOld⟩ := h.tableLive k old hold
      have hoi : old ≠ s.nextId := by
        intro hh
        exact absurd (h.fresh old eOld heOld) (by rw [hh]; exact lt_irrefl _)
      apply evict_inv
      refine finishErase_live_inv _ old eOld ?_ hicOld ?_ ?_
      · dsimp only
        rw [upd_ne _ _ _ _ hoi, upd_ne _ _ _ _ hoi]
        exact heOld
      · exact insert_core_invX s k c old h (by
          intro j hj
          rw [hold] at hj
          cases hj
          rfl)
      · intro k2 hk2
        dsimp only at hk2
        by_cases hk2k : k2 = k
        · subst hk2k
          rw [upd_self] at hk2
          cases hk2
          exact hoi rfl
        · rw [upd_ne _ _ _ _ hk2k] at hk2
          obtain ⟨e2, he2, hke2, _⟩ := h.tableLive k2 old hk2
          rw [heOld] at he2
          cases he2
          exact hk2k (hke2 ▸ hkOld)
  · rw [if_neg hcap]
    apply evict_inv
    refine ⟨?_, ?_, ?_, ?_, ?_, ?_, ?_, ?_, ?_, ?_, ?_⟩ <;> dsimp only
    · intro k2 j hkj
      obtain ⟨e2, he2, hke2, hic2⟩ := h.tableLive k2 j hkj
      have hji : j ≠ s.nextId := fun hh => hT k2 (hh ▸ hkj)
      refine ⟨e2, ?_, hke2, hic2⟩
      rw [upd_ne _ _ _ _ hji]
      exact he2
    · intro j e2 hje hic2
      by_cases hji : j = s.nextId
      · subst hji
        rw [upd_self] at hje
        cases hje
        cases hic2
      · rw [upd_ne _ _ _ _ hji] at hje
        exact h.backlink j e2 hje hic2
    · intro j e2 hje hic2
      by_cases hji : j = s.nextId
      · subst hji
        rw [upd_self] at hje
        cases hje
        cases hic2
      · rw [upd_ne _ _ _ _ hji] at hje
        exact h.cachedOnList j e2 hje hic2
    · intro j e2 hje hic2
      by_cases hji : j = s.nextId
      · subst hji
        exact ⟨hL, hU⟩
      · rw [upd_ne _ _ _ _ hji] at hje
        exact h.uncachedOffLists j e2 hje hic2
    · intro j hj
      have hji : j ≠ s.nextId := by
        intro hh
        subst hh
        rcases hj with hm | hm
        · exact hL hm
        · exact hU hm
      obtain ⟨e2, he2, hic2⟩ := h.listsLive j hj
      refine ⟨e2, ?_, hic2⟩
      rw [upd_ne _ _ _ _ hji]
      exact he2
    · intro j e2 hj hje
      have hji : j ≠ s.nextId := fun hh => hL (hh ▸ hj)
      rw [upd_ne _ _ _ _ hji] at hje
      exact h.lruRefs j e2 hj hje
    · intro j e2 hj hje
      have hji : j ≠ s.nextId := fun hh => hU (hh ▸ hj)
      rw [upd_ne _ _ _ _ hji] at hje
      exact h.inUseRefs j e2 hj hje
    · exact h.disj
    · exact h.lruNodup
    · exact h.inUseNodup
    · intro j e2 hje
      by_cases hji : j = s.nextId
      · subst hji
        exact Nat.lt_succ_self _
      · rw [upd_ne _ _ _ _ hji] at hje
        exact Nat.lt_succ_of_lt (h.fresh j e2 hje)

lemma lookup_inv (s : LRUCacheShard) (k : Nat) (h : ShardInv s) :
    ShardInv (Lookup s k).1 := by
  unfold Lookup
  rcases ht : s.table k with _ | j
  · simp only [ht]
    exact h
  · simp only [ht]
    exact ref_inv s j h

lemma applyOp_inv (s : LRUCacheShard) (op : CacheOp) (h : ShardInv s) :
    ShardInv (applyOp s op) := by
  cases op with
  | insert k c => exact insert_inv s k c h
  | lookup k => exact lookup_inv s k h
  | release i =>
      show ShardInv (match s.entries i with
        | some e => if (if e.inCache then 1 else 0) < e.refs then Release s i else s
        | none => s)
      rcases he : s.entries i with _ | e
      · simp only [he]
        exact h
      · simp only [he]
        by_cases hg : (if e.inCache then 1 else 0) < e.refs
        · rw [if_pos hg]
          refine unref_inv s i h ?_
          intro e2 he2 hle
          rw [he] at he2
          cases he2
          rcases hc : e.inCache with _ | _
          · rfl
          · simp only [hc] at hg
            norm_num at hg
            omega
        · rw [if_neg hg]
          exact h
  | erase k => exact erase_inv s k h
  | prune => exact prune_inv s.lru.length s h

lemma initShard_inv (capacity : Nat) : ShardInv (initShard capacity) := by
  refine ⟨?_, ?_, ?_, ?_, ?_, ?_, ?_, ?_, ?_, ?_, ?_⟩ <;> dsimp only [initShard]
  · intro k i hk
    cases hk
  · intro i e he
    cases he
  · intro i e he
    cases he
  · intro i e he
    cases he
  · intro i hm
    rcases hm with hm | hm <;> cases hm
  · intro i e hm
    cases hm
  · intro i e hm
    cases hm
  · intro i hm
    cases hm
  · exact List.nodup_nil
  · exact List.nodup_nil
  · intro i e he
    cases he

lemma applyOps_inv (ops : List CacheOp) :
    ∀ s : LRUCacheShard, ShardInv s → ShardInv (applyOps s ops) := by
  induction ops with
  | nil => intro s h; exact h
  | cons op ops ih =>
      intro s h
      exact ih (applyOp s op) (applyOp_inv s op h)

/-- The invariant of claim C6, literally: every id in the hash table is on
exactly one of the two lists; entries on `lru_` carry reference count
exactly 1 (the cache's own); entries on `in_use_` carry reference count at
least 2; ids on neither list are absent from the hash table. -/
def ClaimInv (s : LRUCacheShard) : Prop :=
  (∀ k i, s.table k = some i →
      (i ∈ s.lru ∧ i ∉ s.inUse) ∨ (i ∈ s.inUse ∧ i ∉ s.lru)) ∧
  (∀ i e, i ∈ s.lru → s.entries i = some e → e.refs = 1) ∧
  (∀ i e, i ∈ s.inUse → s.entries i = some e → 2 ≤ e.refs) ∧
  (∀ i, i ∉ s.lru → i ∉ s.inUse → ∀ k, s.table k ≠ some i)

lemma claimInv_of_shardInv (s : LRUCacheShard) (h : ShardInv s) : ClaimInv s := by
  refine ⟨?_, h.lruRefs, h.inUseRefs, ?_⟩
  · intro k i hk
    obtain ⟨e, he, _, hic⟩ := h.tableLive k i hk
    rcases h.cachedOnList i e he hic with hm | hm
    · exact Or.inl ⟨hm, h.disj i hm⟩
    · refine Or.inr ⟨hm, ?_⟩
      intro hm2
      exact h.disj i hm2 hm
  · intro i hnl hnu k hk
    obtain ⟨e, he, _, hic⟩ := h.tableLive k i hk
    rcases h.cachedOnList i e he hic with hm | hm
    · exact hnl hm
    · exact hnu hm

end LevelDB

namespace LevelDB

/-- **C6.**  For every LRU cache shard and every finite sequence of `Insert`,
`Lookup`, `Release`, `Erase` and `Prune` operations (a release only of a
handle the client actually holds, per the cache's client contract), the
invariant holds after each operation: every entry present in the shard's
hash table is on exactly one of the two lists, entries on the `lru_` list
have a reference count of exactly 1 (the cache's own reference), entries on
the `in_use_` list have a reference count of at least 2, and entries on
neither list are absent from the hash table. -/
theorem lru_cache_invariant (capacity : Nat) (ops : List CacheOp) :
    ClaimInv (applyOps (initShard capacity) ops) :=
  claimInv_of_shardInv _ (applyOps_inv ops _ (initShard_inv capacity))

end LevelDB

namespace LevelDB

/-! ## TableCache::FindTable (db/table_cache.cc)

The environment is deterministic: opening the `.ldb` or `.sst` file of a
given file number, and parsing an opened file with `Table::Open`, each
either yield a handle (`Except.ok`) or an error status (`Except.error`,
carrying an abstract error code).  File names are determined by the file
number (`TableFileName` / `SSTTableFileName`), so the open calls are
indexed by the number directly.  The table cache is its map abstraction
`file_number → Option (table id)`; `Cache::Insert` is a point update. -/

inductive TCStatus where
  | ok
  | err (code : Nat)
deriving DecidableEq

structure TCEnv where
  ldbOpen : Nat → Except Nat Nat
  sstOpen : Nat → Except Nat Nat
  tableOpen : Nat → Except Nat Nat

/-- The file-opening sequence of `TableCache::FindTable`: try the `.ldb`
name first; on failure fall back to the `.sst` name, and if that fails too
keep the `.ldb` error status (`s` is only overwritten when the second open
succeeds). -/
def tcOpenedFile (env : TCEnv) (fn : Nat) : Except Nat Nat :=
  match env.ldbOpen fn with
  | .ok f => .ok f
  | .error e =>
      match env.sstOpen fn with
      | .ok f => .ok f
      | .error _ => .error e

/-- `TableCache::FindTable`: on a cache hit return the cached handle; on a
miss open the file, parse it with `Table::Open`, and either cache and
return the new entry or return the error with `*handle` still null and the
cache untouched.  Returns (status, `*handle`, cache state). -/
def findTable (env : TCEnv) (cache : Nat → Option Nat) (fn : Nat) :
    TCStatus × Option Nat × (Nat → Option Nat) :=
  match cache fn with
  | some h => (TCStatus.ok, some h, cache)
  | none =>
      match tcOpenedFile env fn with
      | .error e => (TCStatus.err e, none, cache)
      | .ok f =>
          match env.tableOpen f with
          | .error e => (TCStatus.err e, none, cache)
          | .ok t => (TCStatus.ok, some t, upd cache fn (some t))

end LevelDB

namespace LevelDB

/-- **C10.**  If `TableCache::FindTable` fails to open the table file under
both the `.ldb` and `.sst` names, or fails to parse the table, it returns
the non-OK status with `*handle` null and inserts nothing into the cache:
the cache state is unchanged on error, and in particular the entry for the
file number is still absent, so a later call for the same file number
retries the open instead of finding a cached error. -/
theorem tableCache_error_not_cached (env : TCEnv) (cache : Nat → Option Nat) (fn : Nat)
    (hmiss : cache fn = none)
    (hfail : (∃ e, tcOpenedFile env fn = Except.error e) ∨
      ∃ f e, tcOpenedFile env fn = Except.ok f ∧ env.tableOpen f = Except.error e) :
    ∃ e, (findTable env cache fn).1 = TCStatus.err e ∧
      (findTable env cache fn).2.1 = none ∧
      (findTable env cache fn).2.2 = cache ∧
      (findTable env cache fn).2.2 fn = none := by
  rcases hfail with ⟨e, hfo⟩ | ⟨f, e, hfo, hto⟩
  · have hr : findTable env cache fn = (TCStatus.err e, none, cache) := by
      unfold findTable
      rw [hmiss, hfo]
    rw [hr]
    exact ⟨e, rfl, rfl, rfl, hmiss⟩
  · have hr : findTable env cache fn = (TCStatus.err e, none, cache) := by
      unfold findTable
      rw [hmiss, hfo]
      dsimp only
      rw [hto]
    rw [hr]
    exact ⟨e, rfl, rfl, rfl, hmiss⟩

def c10env : TCEnv :=
  { ldbOpen := fun _ => Except.error 7, sstOpen := fun _ => Except.error 8,
    tableOpen := fun f => Except.ok f }

theorem tableCache_error_not_cached_witness :
    ((fun _ => (none : Option Nat)) 5 = none) ∧
    ((∃ e, tcOpenedFile c10env 5 = Except.error e) ∨
      ∃ f e, tcOpenedFile c10env 5 = Except.ok f ∧ c10env.tableOpen f = Except.error e) ∧
    ∃ e, (findTable c10env (fun _ => none) 5).1 = TCStatus.err e ∧
      (findTable c10env (fun _ => none) 5).2.1 = none ∧
      (findTable c10env (fun _ => none) 5).2.2 = (fun _ => none) ∧
      (findTable c10env (fun _ => none) 5).2.2 5 = none :=
  ⟨rfl, Or.inl ⟨7, rfl⟩,
    tableCache_error_not_cached c10env (fun _ => none) 5 rfl (Or.inl ⟨7, rfl⟩)⟩

end LevelDB
